import Mathlib

/-
  Verification development for the log-viewer core:
  a shallow embedding of src/log_viewer/logParser.js and
  src/log_viewer/htmlGenerator.js, with theorems checking the
  natural-language specification against the code.

  Strings are modelled as `List Char` (the JS code treats strings as
  character sequences); JS `Date` values are modelled as
  `Option Int` (epoch milliseconds, `none` for an Invalid Date).
-/

namespace LogViewer

abbrev Line := List Char

/-- characters treated as whitespace by JavaScript string trim and the
    regex class used in the source (ASCII subset; exotic Unicode space
    code points are not modelled). -/
def isJsWhitespace (c : Char) : Bool :=
  (c == ' ') || (c == '\t') || (c == '\n') || (c == '\r') ||
  (c == Char.ofNat 11) || (c == Char.ofNat 12)

/-- JS `String.prototype.trim`: strip whitespace from both ends. -/
def trimJs (cs : Line) : Line :=
  ((cs.dropWhile isJsWhitespace).reverse.dropWhile isJsWhitespace).reverse

/-- logParser.js `getIndentLevel`: walk the line from the start and count
    characters while they are tabs, stopping at the first non-tab. -/
def getIndentLevel (line : Line) : Nat :=
  go line
where
  go : Line → Nat
    | [] => 0
    | c :: rest => if c = '\t' then go rest + 1 else 0

def isDigitChar (c : Char) : Bool := ('0' ≤ c) && (c ≤ '9')

/-- match exactly `n` characters satisfying `p`, returning them and the rest. -/
def takeExact (n : Nat) (p : Char → Bool) (cs : Line) : Option (Line × Line) :=
  match n, cs with
  | 0, rest => some ([], rest)
  | _ + 1, [] => none
  | m + 1, c :: rest =>
    if p c then (takeExact m p rest).map (fun pr => (c :: pr.1, pr.2)) else none

def expectChar (c : Char) : Line → Option Line
  | [] => none
  | d :: rest => if d = c then some rest else none

/-- parsed components of the timestamp pattern
    `\d{4}-\d{2}-\d{2}T\d{2}:\d{2}:\d{2}(\.\d+)?(Z|[+-]\d{2}:\d{2})?`. -/
structure TsMatch where
  year : Nat
  month : Nat
  day : Nat
  hour : Nat
  minute : Nat
  second : Nat
  fracMs : Nat
  /-- zone offset in minutes east of UTC; `none` when the zone part is absent
      (JS then interprets the timestamp in the server-local zone). -/
  zone : Option Int
deriving Repr, DecidableEq

def digitsToNat (ds : Line) : Nat := ds.foldl (fun a c => a * 10 + (c.toNat - 48)) 0

/-- the optional fractional-seconds group `(\.\d+)?`: matched text, the
    millisecond value (first three digits, right-padded) and the rest;
    the group matches empty when no digit follows the dot. -/
def fracPart (r : Line) : Line × Nat × Line :=
  match r with
  | '.' :: r2 =>
    let ds := r2.takeWhile isDigitChar
    if ds = [] then ([], 0, r)
    else ('.' :: ds, digitsToNat ((ds ++ ['0', '0', '0']).take 3), r2.drop ds.length)
  | _ => ([], 0, r)

/-- a signed `\d{2}:\d{2}` zone offset after the sign character. -/
def signedZone (c : Char) (r2 : Line) : Line × Option Int × Line :=
  match takeExact 2 isDigitChar r2 with
  | some (hh, ':' :: r3) =>
    match takeExact 2 isDigitChar r3 with
    | some (mm, r4) =>
      let sign : Int := if c = '+' then 1 else -1
      (c :: hh ++ ':' :: mm, some (sign * (digitsToNat hh * 60 + digitsToNat mm)), r4)
    | none => ([], none, c :: r2)
  | _ => ([], none, c :: r2)

/-- the optional zone group `(Z|[+-]\d{2}:\d{2})?`: matched text, the offset
    in minutes east (when present) and the rest. -/
def zonePart (r : Line) : Line × Option Int × Line :=
  match r with
  | 'Z' :: r2 => (['Z'], some 0, r2)
  | c :: r2 => if c = '+' ∨ c = '-' then signedZone c r2 else ([], none, c :: r2)
  | [] => ([], none, [])

/-- the date-and-time half `\d{4}-\d{2}-\d{2}T\d{2}:\d{2}:\d{2}` of the
    timestamp regex: the six digit groups and the rest. -/
def dateTimePart (cs : Line) : Option ((Line × Line × Line × Line × Line × Line) × Line) := do
  let (y, r) ← takeExact 4 isDigitChar cs
  let r ← expectChar '-' r
  let (mo, r) ← takeExact 2 isDigitChar r
  let r ← expectChar '-' r
  let (d, r) ← takeExact 2 isDigitChar r
  let r ← expectChar 'T' r
  let (h, r) ← takeExact 2 isDigitChar r
  let r ← expectChar ':' r
  let (mi, r) ← takeExact 2 isDigitChar r
  let r ← expectChar ':' r
  let (s, r) ← takeExact 2 isDigitChar r
  pure ((y, mo, d, h, mi, s), r)

/-- try to match the timestamp regex of logParser.js at the start of `cs`;
    on success return the components, the matched text and the rest.
    The regex has no observable backtracking: the exact-width digit groups
    admit a single parse, the greedy fractional digits are followed only by
    a non-digit alternative, and the optional groups fail as a whole. -/
def matchTsAt (cs : Line) : Option (TsMatch × Line × Line) :=
  match dateTimePart cs with
  | none => none
  | some ((y, mo, d, h, mi, s), r0) =>
    let fz := fracPart r0
    let zz := zonePart fz.2.2
    let info : TsMatch :=
      { year := digitsToNat y, month := digitsToNat mo, day := digitsToNat d
      , hour := digitsToNat h, minute := digitsToNat mi, second := digitsToNat s
      , fracMs := fz.2.1, zone := zz.2.1 }
    some (info, y ++ '-' :: mo ++ '-' :: d ++ 'T' :: h ++ ':' :: mi ++ ':' :: s ++ fz.1 ++ zz.1, zz.2.2)

/-- leftmost match of the timestamp regex: scan start positions left to right.
    Returns (text before, components, matched text, text after). -/
def findTsMatch : Line → Option (Line × TsMatch × Line × Line)
  | [] => none
  | c :: rest =>
    match matchTsAt (c :: rest) with
    | some (info, m, after) => some ([], info, m, after)
    | none =>
      match findTsMatch rest with
      | some (pre, info, m, after) => some (c :: pre, info, m, after)
      | none => none

def isLeapYear (y : Int) : Bool := (y % 4 == 0) && ((y % 100 != 0) || (y % 400 == 0))

def daysInMonth (y : Int) (m : Nat) : Nat :=
  if m = 1 ∨ m = 3 ∨ m = 5 ∨ m = 7 ∨ m = 8 ∨ m = 10 ∨ m = 12 then 31
  else if m = 4 ∨ m = 6 ∨ m = 9 ∨ m = 11 then 30
  else if isLeapYear y then 29 else 28

/-- days since 1970-01-01 of a civil date (standard era-based computation). -/
def daysFromCivil (y : Int) (m : Nat) (d : Nat) : Int :=
  let y2 : Int := if m ≤ 2 then y - 1 else y
  let era : Int := (if 0 ≤ y2 then y2 else y2 - 399) / 400
  let yoe : Int := y2 - era * 400
  let mp : Int := (Int.ofNat m + 9) % 12
  let doy : Int := (153 * mp + 2) / 5 + Int.ofNat d - 1
  let doe : Int := yoe * 365 + yoe / 4 - yoe / 100 + doy
  era * 146097 + doe - 719468

/-- semantics of `new Date(isoLikeString)` for strings matched by the source's
    timestamp regex: epoch milliseconds on a valid date, `none` (Invalid Date)
    on out-of-range components.  `tz` is the server-local zone offset in
    milliseconds east of UTC, used when the string carries no zone. -/
def jsDateOf (tz : Int) (t : TsMatch) : Option Int :=
  if 1 ≤ t.month ∧ t.month ≤ 12 ∧ 1 ≤ t.day ∧ t.day ≤ daysInMonth t.year t.month ∧
     (t.hour ≤ 23 ∨ (t.hour = 24 ∧ t.minute = 0 ∧ t.second = 0 ∧ t.fracMs = 0)) ∧
     t.minute ≤ 59 ∧ t.second ≤ 59 then
    let offset : Int := match t.zone with
      | some z => z * 60000
      | none => tz
    some (daysFromCivil t.year t.month t.day * 86400000 +
          t.hour * 3600000 + t.minute * 60000 + t.second * 1000 + t.fracMs - offset)
  else none

/-- logParser.js `extractTimestamp`: `null` when the regex does not match,
    otherwise the `new Date(...)` value (which may be an Invalid Date). -/
def extractTimestamp (tz : Int) (line : Line) : Option (Option Int) :=
  (findTsMatch line).map (fun x => jsDateOf tz x.2.1)

/-- logParser.js `removeTimestamp`: delete the first regex match and trim. -/
def removeTimestamp (text : Line) : Line :=
  match findTsMatch text with
  | some (pre, _, _, after) => trimJs (pre ++ after)
  | none => trimJs text

/-- the level alternatives of the source regex, in the source's alternation
    order (`WARN` before `WARNING`; the regex engine falls back to the next
    alternative when the following `\s+-\s+` fails). -/
def logLevelNames : List Line :=
  ["DEBUG".data, "INFO".data, "WARN".data, "WARNING".data, "ERROR".data, "FATAL".data, "TRACE".data]

def toUpperChar (c : Char) : Char :=
  if ('a' ≤ c) && (c ≤ 'z') then Char.ofNat (c.toNat - 32) else c

def toLowerChar (c : Char) : Char :=
  if ('A' ≤ c) && (c ≤ 'Z') then Char.ofNat (c.toNat + 32) else c

def toUpperLine (s : Line) : Line := s.map toUpperChar
def toLowerLine (s : Line) : Line := s.map toLowerChar

/-- case-insensitive literal match of `pat` at the start of `cs`. -/
def matchCaseInsensitive : Line → Line → Option Line
  | [], cs => some cs
  | _ :: _, [] => none
  | p :: ps, c :: cs => if toUpperChar c = toUpperChar p then matchCaseInsensitive ps cs else none

/-- `\s+` (one or more whitespace characters, greedily). -/
def wsPlus : Line → Option Line
  | [] => none
  | c :: rest => if isJsWhitespace c then some (rest.dropWhile isJsWhitespace) else none

/-- the `\s+-\s+` separator tail shared by the level and logger regexes.
    The greedy `\s+` runs are maximal; since `-` is not whitespace and the
    class characters are not whitespace, no backtracking can help, so the
    maximal-run reading is exact. -/
def sepTail (cs : Line) : Option Line := do
  let r ← wsPlus cs
  let r ← expectChar '-' r
  wsPlus r

/-- ordered alternation over the level names with the `\s+-\s+` continuation,
    mirroring regex backtracking across alternatives. -/
def tryLevels : List Line → Line → Option (Line × Line)
  | [], _ => none
  | name :: more, cs =>
    match matchCaseInsensitive name cs with
    | some r =>
      match sepTail r with
      | some r2 => some (name, r2)
      | none => tryLevels more cs
    | none => tryLevels more cs

/-- logParser.js `extractLogLevel`: on the text with the timestamp removed,
    match `^-\s+(DEBUG|INFO|WARN|WARNING|ERROR|FATAL|TRACE)\s+-\s+` case
    insensitively; first component is the uppercased level name, second the
    remaining text (trimmed) or the unchanged timestamp-free text. -/
def extractLogLevel (text : Line) : Option Line × Line :=
  let t := removeTimestamp text
  match t with
  | '-' :: r0 =>
    match wsPlus r0 with
    | some r1 =>
      match tryLevels logLevelNames r1 with
      | some (name, rest) => (some name, trimJs rest)
      | none => (none, t)
    | none => (none, t)
  | _ => (none, t)

def isLoggerNameChar (c : Char) : Bool :=
  (('a' ≤ c) && (c ≤ 'z')) || (('A' ≤ c) && (c ≤ 'Z')) || isDigitChar c ||
  (c == '.') || (c == '_') || (c == '-')

/-- logParser.js `extractLoggerName`: after level extraction, match
    `^([a-zA-Z0-9._-]+)\s+-\s+`.  The greedy class run is maximal (shrinking
    it leaves a class character where `\s+` must match, which always fails),
    so the maximal-run reading is exact. -/
def extractLoggerName (text : Line) : Option Line × Line :=
  let rest := (extractLogLevel text).2
  let run := rest.takeWhile isLoggerNameChar
  if run = [] then (none, rest)
  else
    match sepTail (rest.drop run.length) with
    | some r2 => (some run, trimJs r2)
    | none => (none, rest)

/-- logParser.js `generateStableId` computes a truncated SHA-256 digest of the
    entry text.  The digest itself is library code outside the repository; no
    claim depends on its value, so it is modelled as the identity embedding of
    the hashed text (deterministic, as the source digest is). -/
def generateStableId (text : Line) : Line := text

/-- one parsed record (the scalar fields of a LogEntry; children live in the
    surrounding tree node). -/
structure Payload where
  text : Line
  originalText : Line
  level : Nat
  logLevel : Option Line
  loggerName : Option Line
  timestamp : Option (Option Int)
  id : Line
deriving Repr, DecidableEq

/-- the entry record built per line in logParser.js `parseContent`. -/
def mkPayload (tz : Int) (text : Line) (lvl : Nat) : Payload :=
  { text := (extractLoggerName text).2
  , originalText := text
  , level := lvl
  , logLevel := (extractLogLevel text).1
  , loggerName := (extractLoggerName text).1
  , timestamp := extractTimestamp tz text
  , id := generateStableId text }

/-- a LogEntry: scalar fields plus the ordered child list. -/
inductive Tree where
  | node (val : Payload) (children : List Tree)

def Tree.val : Tree → Payload
  | .node v _ => v

def Tree.children : Tree → List Tree
  | .node _ cs => cs

/-- a stack frame of the tree builder: an entry whose child list is still
    being accumulated.  The JS code pushes the entry object and mutates its
    `children` in place; functionally, an entry is attached to its parent
    (the frame below, or the root list) when it is popped, at which point its
    child list is complete. -/
abbrev Frame := Payload × List Tree

/-- the pop condition of the builder loop: stack top has depth ≥ current. -/
def frameTest (lvl : Nat) (f : Frame) : Bool := lvl ≤ f.1.level

/-- close a tree into the frames above it in popped order: each closed entry
    becomes the last child of the frame below. -/
def closeOnto (fs : List Frame) (t : Tree) : Tree :=
  fs.foldl (fun t f => Tree.node f.1 (f.2 ++ [t])) t

/-- the `while (stack.length > 0 && stack[top].level >= level) stack.pop()`
    loop of `parseContent`: pop the maximal top segment whose depth is ≥ the
    current depth, closing each popped entry into its parent (the next frame
    below, or the root list when the stack empties). -/
def popStack (lvl : Nat) (stack : List Frame) (roots : List Tree) :
    List Frame × List Tree :=
  match stack.takeWhile (frameTest lvl), stack.dropWhile (frameTest lvl) with
  | [], _ => (stack, roots)
  | f :: more, rest =>
    let t := closeOnto more (Tree.node f.1 f.2)
    match rest with
    | [] => ([], roots ++ [t])
    | g :: rest2 => ((g.1, g.2 ++ [t]) :: rest2, roots)

/-- one iteration of the `for (const line of lines)` loop in `parseContent`:
    measure the indent, strip it and trim, skip the line when empty,
    otherwise pop the stack, attach and push the new entry. -/
def stepLine (tz : Int) (st : List Frame × List Tree) (line : Line) :
    List Frame × List Tree :=
  let lvl := getIndentLevel line
  let text := trimJs (line.drop lvl)
  if text = [] then st
  else
    let (stack, roots) := popStack lvl st.1 st.2
    ((mkPayload tz text lvl, []) :: stack, roots)

/-- logParser.js `parseContent`: fold the builder step over the lines and
    close every remaining open entry (every depth is ≥ 0, so popping at
    depth 0 closes the whole stack). -/
def parseContent (tz : Int) (lines : List Line) : List Tree :=
  let st := lines.foldl (stepLine tz) ([], [])
  (popStack 0 st.1 st.2).2

mutual
/-- depth-first payload list of a tree: the entry, then its subtrees in order. -/
def flattenT : Tree → List Payload
  | .node v cs => v :: flattenF cs

/-- depth-first payload list of a forest. -/
def flattenF : List Tree → List Payload
  | [] => []
  | t :: ts => flattenT t ++ flattenF ts
end

mutual
/-- parent indices in depth-first numbering: a tree rooted at index `i` with
    parent `par` contributes `par` for its root and recursively numbers its
    children with parent `i`. -/
def parT (par : Option Nat) (i : Nat) : Tree → List (Option Nat)
  | .node _ cs => par :: parF (some i) (i + 1) cs

/-- parent indices of a forest whose first root sits at index `i`. -/
def parF (par : Option Nat) (i : Nat) : List Tree → List (Option Nat)
  | [] => []
  | t :: ts => parT par i t ++ parF par (i + (flattenT t).length) ts
end

/-- the depth-first parent-index list of a whole forest: entry `k` holds the
    depth-first index of the parent of the `k`-th entry in depth-first order,
    `none` for a forest root. -/
def parents (f : List Tree) : List (Option Nat) := parF none 0 f

/-- scan indices `j = i - 1, ..., 0` and return the first (largest) with
    `L[j] < lvl`. -/
def nearestSmallerAux (L : List Nat) (lvl : Nat) : Nat → Option Nat
  | 0 => none
  | j + 1 => if L.getD j 0 < lvl then some j else nearestSmallerAux L lvl j

/-- the nearest preceding index whose level is strictly smaller: the largest
    `j < i` with `L[j] < L[i]`, `none` when there is no such index. -/
def nearestSmaller (L : List Nat) (i : Nat) : Option Nat :=
  nearestSmallerAux L (L.getD i 0) i

/-- payloads stored in a stack listed bottom-first, each frame contributing
    its own payload followed by its accumulated children. -/
def framesFlat : List Frame → List Payload
  | [] => []
  | f :: rest => (f.1 :: flattenF f.2) ++ framesFlat rest

/-- all payloads of a builder state in input order: finished roots first,
    then the open frames bottom-first. -/
def stateFlat (st : List Frame × List Tree) : List Payload :=
  flattenF st.2 ++ framesFlat st.1.reverse

/-- predicted parent indices of the payloads of a frame stack (bottom-first,
    first frame at index `i` with parent `par`): each frame's payload will be
    attached, when popped, to the frame below it (or to the roots). -/
def framesPar : List Frame → Option Nat → Nat → List (Option Nat)
  | [], _, _ => []
  | f :: rest, par, i =>
    (par :: parF (some i) (i + 1) f.2) ++
      framesPar rest (some i) (i + 1 + (flattenF f.2).length)

/-- predicted final parent indices of all payloads of a builder state. -/
def statePar (st : List Frame × List Tree) : List (Option Nat) :=
  parF none 0 st.2 ++ framesPar st.1.reverse none (flattenF st.2).length

/-- depth-first indices of the frame payloads of a stack (bottom-first, first
    frame at index `i`). -/
def idxAux : Nat → List Frame → List Nat
  | _, [] => []
  | i, f :: rest => i :: idxAux (i + 1 + (flattenF f.2).length) rest

/-- depth-first indices of the open frames of a builder state, bottom-first. -/
def stackIdxs (st : List Frame × List Tree) : List Nat :=
  idxAux (flattenF st.2).length st.1.reverse

/-- the timestamp acceptance test of the reader loop:
    `timestamp && timestamp >= cutoffTime`.  A `null` (no regex match) fails
    the first conjunct; a Date object is always truthy, but an Invalid Date
    compares false; a valid date passes iff its instant is ≥ the cutoff. -/
def tsAccept (tz cutoff : Int) (line : Line) : Bool :=
  match extractTimestamp tz line with
  | some (some m) => decide (cutoff ≤ m)
  | _ => false

/-- the result record of `readRecentLinesWithStats`. -/
structure ReadStats where
  recentLines : List Line
  fileSizeBytes : Nat
  totalRecords : Nat
deriving Repr, DecidableEq

/-- one iteration of the reader loop: skip blank lines, count the rest, and
    keep those whose timestamp passes the cutoff test. -/
def readStatsStep (tz cutoff : Int) (acc : List Line × Nat) (line : Line) :
    List Line × Nat :=
  if trimJs line = [] then acc
  else (if tsAccept tz cutoff line then acc.1 ++ [line] else acc.1, acc.2 + 1)

/-- logParser.js `readRecentLinesWithStats`: stream the lines, counting every
    non-blank one and collecting those within the time window; the file size
    comes from `fs.promises.stat`. -/
def readRecentLinesWithStats (tz : Int) (fileSizeBytes : Nat) (lines : List Line)
    (cutoffTime : Int) : ReadStats :=
  let r := lines.foldl (readStatsStep tz cutoffTime) ([], 0)
  { recentLines := r.1, fileSizeBytes := fileSizeBytes, totalRecords := r.2 }

/-- the stats record assembled by `parseLogFileWithStats`. -/
structure FileStats where
  fileSizeBytes : Nat
  totalRecords : Nat
  recordsPassedCutoff : Nat
deriving Repr, DecidableEq

/-- entries plus stats, the successful result of `parseLogFileWithStats`. -/
structure ParseResult where
  entries : List Tree
  stats : FileStats

/-- outcome of reading the configured log file: its size and lines, or an
    I/O error (file missing or unreadable). -/
inductive ReadOutcome where
  | ok (sizeBytes : Nat) (lines : List Line)
  | ioError (message : Line)

/-- logParser.js `parseLogFileWithStats`: on a read error the `catch` branch
    logs to the console and returns empty entries with zeroed stats — the
    error is not re-thrown.  `cutoff` models `Date.now() - windowMinutes*60_000`. -/
def parseLogFileWithStats (tz cutoff : Int) (r : ReadOutcome) : ParseResult :=
  match r with
  | .ioError _ => { entries := [], stats := ⟨0, 0, 0⟩ }
  | .ok size lines =>
    let res := readRecentLinesWithStats tz size lines cutoff
    { entries := parseContent tz res.recentLines
    , stats := ⟨res.fileSizeBytes, res.totalRecords, res.recentLines.length⟩ }

/-- an apostrophe (U+0027), written via its code point. -/
def sqChar : Char := Char.ofNat 39

/-- a double quote (U+0022), written via its code point. -/
def dqChar : Char := Char.ofNat 34

/-- htmlGenerator.js `escapeForDataAttribute`: three sequential global
    replaces (`&` first, then the quotes); since the quote replacements are
    applied after the ampersand pass, their introduced `&` survive, so the
    sequential replaces equal this single character-wise pass. -/
def escapeForDataAttribute : Line → Line
  | [] => []
  | c :: rest =>
    (if c = '&' then "&amp;".data
     else if c = dqChar then "&quot;".data
     else if c = sqChar then "&#39;".data
     else [c]) ++ escapeForDataAttribute rest

/-- HTML attribute-value decoding as a browser performs it when reading the
    attribute back (`getAttribute`), restricted to the three entities the
    escape can produce; all other text is returned unchanged. -/
def decodeAttrEntities : Line → Line
  | '&' :: 'a' :: 'm' :: 'p' :: ';' :: rest => '&' :: decodeAttrEntities rest
  | '&' :: 'q' :: 'u' :: 'o' :: 't' :: ';' :: rest => dqChar :: decodeAttrEntities rest
  | '&' :: '#' :: '3' :: '9' :: ';' :: rest => sqChar :: decodeAttrEntities rest
  | c :: rest => c :: decodeAttrEntities rest
  | [] => []

/-- the escape character U+001B. -/
def escChar : Char := Char.ofNat 27

/-- JS `"str".split(';')` on a character list. -/
def splitSemi (cs : Line) : List Line :=
  go cs []
where
  go : Line → Line → List Line
    | [], acc => [acc.reverse]
    | c :: rest, acc => if c = ';' then acc.reverse :: go rest [] else go rest (c :: acc)

/-- the composed `colorMap`/`cssColorMap` tables of `parseAnsiColors`: a
    recognized foreground code yields its fixed css color. -/
def ansiColorHex (code : Line) : Option Line :=
  if code = "30".data then some "#000000".data
  else if code = "31".data then some "#CC0000".data
  else if code = "32".data then some "#00CC00".data
  else if code = "33".data then some "#CCCC00".data
  else if code = "34".data then some "#0000CC".data
  else if code = "35".data then some "#CC00CC".data
  else if code = "36".data then some "#00CCCC".data
  else if code = "37".data then some "#CCCCCC".data
  else if code = "90".data then some "#808080".data
  else if code = "91".data then some "#FF6666".data
  else if code = "92".data then some "#66FF66".data
  else if code = "93".data then some "#FFFF66".data
  else if code = "94".data then some "#6666FF".data
  else if code = "95".data then some "#FF66FF".data
  else if code = "96".data then some "#66FFFF".data
  else if code = "97".data then some "#FFFFFF".data
  else none

def closeSpanStr : Line := "</span>".data

def openSpanStr (hex : Line) : Line :=
  "<span style=".data ++ [dqChar] ++ "color: ".data ++ hex ++ [dqChar] ++ ">".data

/-- handling of one code item: `0` or an empty item closes any open span, a
    recognized color code closes any open span and opens a new one, anything
    else is ignored (consumed without output). -/
def codeStepFn (st : Line × Bool) (code : Line) : Line × Bool :=
  if code = ['0'] ∨ code = [] then
    (st.1 ++ (if st.2 then closeSpanStr else []), false)
  else
    match ansiColorHex code with
    | some hex => (st.1 ++ (if st.2 then closeSpanStr else []) ++ openSpanStr hex, true)
    | none => st

/-- processing of one escape sequence's code list, with the source's
    `if (codes && codes[1])` guard: an empty code string (a bare `ESC[m`) is
    skipped entirely; otherwise the codes split on `;` are handled in order. -/
def processCodes (codeStr : Line) (inSpan : Bool) : Line × Bool :=
  if codeStr = [] then ([], inSpan)
  else (splitSemi codeStr).foldl codeStepFn ([], inSpan)

/-- code-list processing as the specification words it, without the guard: a
    bare `ESC[m` splits into one empty item, which closes any open span. -/
def processCodesClaim (codeStr : Line) (inSpan : Bool) : Line × Bool :=
  (splitSemi codeStr).foldl codeStepFn ([], inSpan)

def isCodeChar (c : Char) : Bool := isDigitChar c || (c == ';')

/-- scanner mode while walking the text for `ESC [ codes m` sequences. -/
inductive AnsiMode where
  | plain
  | sawEsc
  | inCode (acc : Line)

/-- one character of the ANSI scan.  The source splits the text on the regex
    `ESC \[ [0-9;]* m` (keeping separators) and then processes the parts in
    order; this single pass recognizes exactly the same leftmost,
    non-overlapping sequences, emits unmatched text (including partial
    sequences) verbatim, and processes each complete sequence in place. -/
def ansiStep (st : Line × AnsiMode × Bool) (c : Char) : Line × AnsiMode × Bool :=
  match st with
  | (out, .plain, inSpan) =>
    if c = escChar then (out, .sawEsc, inSpan) else (out ++ [c], .plain, inSpan)
  | (out, .sawEsc, inSpan) =>
    if c = '[' then (out, .inCode [], inSpan)
    else if c = escChar then (out ++ [escChar], .sawEsc, inSpan)
    else (out ++ [escChar, c], .plain, inSpan)
  | (out, .inCode acc, inSpan) =>
    if c = 'm' then
      let r := processCodes acc inSpan
      (out ++ r.1, .plain, r.2)
    else if isCodeChar c then (out, .inCode (acc ++ [c]), inSpan)
    else if c = escChar then (out ++ escChar :: '[' :: acc, .sawEsc, inSpan)
    else (out ++ escChar :: '[' :: acc ++ [c], .plain, inSpan)

/-- flush at end of text: a pending partial sequence is literal text, and an
    open span is auto-closed. -/
def ansiFlush (st : Line × AnsiMode × Bool) : Line :=
  let pend : Line :=
    match st.2.1 with
    | .plain => []
    | .sawEsc => [escChar]
    | .inCode acc => escChar :: '[' :: acc
  st.1 ++ pend ++ (if st.2.2 then closeSpanStr else [])

/-- the `text.replace(/\\033/g, '\u001b')` normalization: every literal
    backslash-033 becomes the real escape character (left-to-right,
    non-overlapping). -/
def normalizeEsc : Line → Line
  | '\\' :: '0' :: '3' :: '3' :: rest => escChar :: normalizeEsc rest
  | c :: rest => c :: normalizeEsc rest
  | [] => []

/-- htmlGenerator.js `parseAnsiColors`. -/
def parseAnsiColors (text : Line) : Line :=
  ansiFlush ((normalizeEsc text).foldl ansiStep ([], .plain, false))

/-- a lexical part of the text: literal text, or a complete escape
    sequence's code string (the split the source's regex produces). -/
abbrev AnsiTok := Sum Line Line

/-- tokenizing counterpart of `ansiStep`: same scan, but recording parts
    instead of rendering them. -/
def tokStep (st : List AnsiTok × AnsiMode) (c : Char) : List AnsiTok × AnsiMode :=
  match st with
  | (toks, .plain) =>
    if c = escChar then (toks, .sawEsc) else (toks ++ [.inl [c]], .plain)
  | (toks, .sawEsc) =>
    if c = '[' then (toks, .inCode [])
    else if c = escChar then (toks ++ [.inl [escChar]], .sawEsc)
    else (toks ++ [.inl [escChar, c]], .plain)
  | (toks, .inCode acc) =>
    if c = 'm' then (toks ++ [.inr acc], .plain)
    else if isCodeChar c then (toks, .inCode (acc ++ [c]))
    else if c = escChar then (toks ++ [.inl (escChar :: '[' :: acc)], .sawEsc)
    else (toks ++ [.inl (escChar :: '[' :: acc ++ [c])], .plain)

/-- a pending partial sequence at end of text is literal text. -/
def flushTok (st : List AnsiTok × AnsiMode) : List AnsiTok :=
  st.1 ++
    (match st.2 with
     | .plain => []
     | .sawEsc => [.inl [escChar]]
     | .inCode acc => [.inl (escChar :: '[' :: acc)])

/-- the lexical parts of the (normalized) text, in order. -/
def ansiTokens (text : Line) : List AnsiTok :=
  flushTok ((normalizeEsc text).foldl tokStep ([], .plain))

/-- render a token list with an explicit open-span state, as the
    specification describes the decoding: text passes through, each escape
    sequence's codes update the span state via `proc`, and a span still open
    at the end is auto-closed. -/
def ansiSpecRender (proc : Line → Bool → Line × Bool) : List AnsiTok → Bool → Line
  | [], inSpan => if inSpan then closeSpanStr else []
  | .inl txt :: rest, inSpan => txt ++ ansiSpecRender proc rest inSpan
  | .inr code :: rest, inSpan =>
    (proc code inSpan).1 ++ ansiSpecRender proc rest (proc code inSpan).2

/-- one token of the fold form of rendering. -/
def renderStepFn (proc : Line → Bool → Line × Bool) (st : Line × Bool) (t : AnsiTok) :
    Line × Bool :=
  match t with
  | .inl txt => (st.1 ++ txt, st.2)
  | .inr code => ((st.1 ++ (proc code st.2).1), (proc code st.2).2)

/-- fold form of token rendering, used to relate the renderer to the
    single-pass scan. -/
def renderFold (proc : Line → Bool → Line × Bool) (ts : List AnsiTok) (s : Bool) :
    Line × Bool :=
  ts.foldl (renderStepFn proc) ([], s)

/-- the ANSI decoding exactly as the specification sentence states it,
    including "a reset code (0 or empty) closes any currently open span"
    for a bare `ESC[m`. -/
def ansiClaimModel (text : Line) : Line :=
  ansiSpecRender processCodesClaim (ansiTokens text) false

/-- the ANSI decoding as amended: same as the claim, except that a bare
    `ESC[m` (an empty code list standing alone) is consumed with no effect;
    an empty code item accompanied by others still closes the span. -/
def ansiAmendedModel (text : Line) : Line :=
  ansiSpecRender processCodes (ansiTokens text) false

/-- the five character escapes of `escapeHtml`, applied before the ANSI pass;
    as in `escapeForDataAttribute`, the sequential global replaces equal one
    character-wise pass because `&` is replaced first. -/
def escapeHtmlChars : Line → Line
  | [] => []
  | c :: rest =>
    (if c = '&' then "&amp;".data
     else if c = '<' then "&lt;".data
     else if c = '>' then "&gt;".data
     else if c = dqChar then "&quot;".data
     else if c = sqChar then "&#39;".data
     else [c]) ++ escapeHtmlChars rest

/-- replace every (non-overlapping, leftmost) occurrence of the two-character
    pattern `a b` by `sub`. -/
def replaceTwo (a b : Char) (sub : Line) : Line → Line
  | [] => []
  | [c] => [c]
  | c :: d :: rest =>
    if c = a ∧ d = b then sub ++ replaceTwo a b sub rest
    else c :: replaceTwo a b sub (d :: rest)

/-- replace `\\\\n` (backslash backslash n) by `<br>`. -/
def replaceBBn : Line → Line
  | '\\' :: '\\' :: 'n' :: rest => '<' :: 'b' :: 'r' :: '>' :: replaceBBn rest
  | c :: rest => c :: replaceBBn rest
  | [] => []

/-- htmlGenerator.js `escapeHtml`: character escapes, then the literal
    `\\n`/`\n`/`\t` rewrites, then the ANSI pass. -/
def escapeHtml (text : Line) : Line :=
  parseAnsiColors
    (replaceTwo '\\' 't' "&nbsp;&nbsp;&nbsp;&nbsp;".data
      (replaceTwo '\\' 'n' "<br>".data
        (replaceBBn (escapeHtmlChars text))))

/-- decimal rendering of a number as a character list. -/
def natDigitsLine (n : Nat) : Line := (toString n).data

/-- `toLocaleString` output is locale- and environment-specific; it is
    modelled as a fixed rendering of the instant.  No claim depends on its
    shape; only the null/non-null split of the source is meaningful. -/
def localeStringModel : Option Int → Line
  | none => "Invalid Date".data
  | some ms => "ts ".data ++ (toString ms).data

/-- the timestamp span of `generateEntry`: a JS Date object is truthy even
    when invalid, so any non-null timestamp renders the span. -/
def tsDisplayModel : Option (Option Int) → Line
  | none => []
  | some v => "<span class=".data ++ [dqChar] ++ "timestamp".data ++ [dqChar] ++ ">".data
      ++ localeStringModel v ++ "</span>".data

/-- the level badge of `generateEntry`. -/
def logLevelDisplayModel : Option Line → Line
  | none => []
  | some lv => "<span class=".data ++ [dqChar] ++ "log-level log-level-".data
      ++ toLowerLine lv ++ [dqChar] ++ ">".data ++ lv ++ "</span>".data

/-- the logger badge of `generateEntry`. -/
def loggerDisplayModel : Option Line → Line
  | none => []
  | some lg => "<span class=".data ++ [dqChar] ++ "logger-name".data ++ [dqChar] ++ ">".data
      ++ lg ++ "</span>".data

/-- the expand affordance: a clickable arrow only when children exist,
    otherwise an inert bullet. -/
def expandBtnHtml (id : Line) (hasChildren : Bool) : Line :=
  if hasChildren then
    "<button class=".data ++ [dqChar] ++ "expand-btn".data ++ [dqChar]
      ++ " onclick=".data ++ [dqChar] ++ "toggleExpand(this, ".data
      ++ [sqChar] ++ id ++ [sqChar] ++ ")".data ++ [dqChar] ++ ">".data
      ++ "▶</button>".data
  else
    "<button class=".data ++ [dqChar] ++ "expand-btn no-children".data ++ [dqChar]
      ++ ">•</button>".data

/-- the constant `onclick` attribute of every copy button in the generated
    markup: the text to copy is read from the `data-original-text` attribute. -/
def copyBtnOnclick : Line :=
  "copyToClipboard(this.getAttribute(".data ++ [sqChar] ++ "data-original-text".data
    ++ [sqChar] ++ ")); return false;".data

/-- the copy affordance of `generateEntry`: the original text is carried
    HTML-escaped in the `data-original-text` attribute. -/
def copyBtnHtml (e : Payload) : Line :=
  "<button class=".data ++ [dqChar] ++ "copy-btn".data ++ [dqChar]
    ++ " data-original-text=".data ++ [dqChar] ++ escapeForDataAttribute e.originalText
    ++ [dqChar] ++ " onclick=".data ++ [dqChar] ++ copyBtnOnclick ++ [dqChar]
    ++ ">copy</button>".data

/-- the row click handler attribute, present only for entries with children. -/
def rowClickHandlerHtml (id : Line) (hasChildren : Bool) : Line :=
  if hasChildren then
    " onclick=".data ++ [dqChar] ++ "handleRowClick(event, ".data ++ [sqChar] ++ id
      ++ [sqChar] ++ ")".data ++ [dqChar]
  else []

/-- the row of one entry (htmlGenerator.js `generateEntry`, row part);
    inter-tag template whitespace is not reproduced. -/
def rowHtml (v : Payload) (hasChildren : Bool) : Line :=
  "<div class=".data ++ [dqChar] ++ "log-row level-".data
    ++ natDigitsLine (Nat.min v.level 4) ++ [dqChar]
    ++ rowClickHandlerHtml v.id hasChildren ++ ">".data
    ++ expandBtnHtml v.id hasChildren
    ++ tsDisplayModel v.timestamp
    ++ logLevelDisplayModel v.logLevel
    ++ loggerDisplayModel v.loggerName
    ++ "<div class=".data ++ [dqChar] ++ "log-text".data ++ [dqChar] ++ ">".data
    ++ escapeHtml v.text ++ "</div>".data
    ++ copyBtnHtml v
    ++ "</div>".data

mutual
/-- htmlGenerator.js `generateEntry`: the row, then the (initially hidden)
    children container when children exist. -/
def generateEntry : Tree → Line
  | .node v cs =>
    "<div class=".data ++ [dqChar] ++ "log-entry".data ++ [dqChar] ++ ">".data
      ++ rowHtml v (!cs.isEmpty)
      ++ (if cs.isEmpty then []
          else "<div id=".data ++ [dqChar] ++ "children-".data ++ v.id ++ [dqChar]
            ++ " class=".data ++ [dqChar] ++ "children hidden".data ++ [dqChar] ++ ">".data
            ++ generateEntries cs ++ "</div>".data)
      ++ "</div>".data

/-- htmlGenerator.js `generateEntries`: concatenation over the forest. -/
def generateEntries : List Tree → Line
  | [] => []
  | t :: ts => generateEntry t ++ generateEntries ts
end

/-- the dynamic parts of the generated document (the static page template,
    styles and script are fixed text and are not reproduced). -/
structure HtmlDoc where
  logFilePath : Line
  timeWindowMinutes : Nat
  stats : FileStats
  body : Line
deriving DecidableEq

/-- htmlGenerator.js `generateHtml`, restricted to its dynamic parts. -/
def generateHtml (entries : List Tree) (logFilePath : Line) (timeWindowMinutes : Nat)
    (stats : FileStats) : HtmlDoc :=
  ⟨logFilePath, timeWindowMinutes, stats, generateEntries entries⟩

/-- response of the document endpoint. -/
inductive HttpResponse where
  | page (doc : HtmlDoc)
  | serverError (message : Line)
  | infoPage
deriving DecidableEq

def isErrorResponse : HttpResponse → Bool
  | .serverError _ => true
  | _ => false

/-- the `/` route of server.js: an informational page when no file is
    configured; otherwise parse and render.  The route's catch branches
    return 500 responses, but `parseLogFileWithStats` catches read errors
    internally and returns an empty result, so the parse step never throws
    on a missing file; the pure rendering model cannot throw either. -/
def handleRootRequest (tz cutoff : Int) (timeWindowMinutes : Nat)
    (logFilePath : Option Line) (r : ReadOutcome) : HttpResponse :=
  match logFilePath with
  | none => .infoPage
  | some path =>
    let res := parseLogFileWithStats tz cutoff r
    .page (generateHtml res.entries path timeWindowMinutes res.stats)

/-- case-sensitive literal prefix match, returning the rest on success. -/
def matchLiteral : Line → Line → Option Line
  | [], cs => some cs
  | _ :: _, [] => none
  | p :: ps, c :: cs => if c = p then matchLiteral ps cs else none

/-- JS `hay.includes(needle)`. -/
def includesSub : Line → Line → Bool
  | [], needle => needle = []
  | c :: rest, needle => (matchLiteral needle (c :: rest)).isSome || includesSub rest needle

/-- the literal head `copyToClipboard('` of the extraction regex used by
    `applyFilter`. -/
def literalCopyCall : Line := "copyToClipboard(".data ++ [sqChar]

/-- split at the last occurrence of `')` (the greedy `(.*)')` tail). -/
def lastClose : Line → Option (Line × Line)
  | [] => none
  | c :: rest =>
    match lastClose rest with
    | some (pre, post) => some (c :: pre, post)
    | none =>
      if c = sqChar then
        match rest with
        | ')' :: post => some ([], post)
        | _ => none
      else none

/-- the `onclick.match(/copyToClipboard\('(.*)'\)/)` capture: the leftmost
    position where the literal head matches, with the greedy group running to
    the last `')`.  (The JS dot does not match newlines; the onclick
    attributes involved are single-line, so the difference is unobservable.) -/
def jsCopyRegexGroup : Line → Option Line
  | [] => none
  | c :: rest =>
    match matchLiteral literalCopyCall (c :: rest) with
    | some r =>
      match lastClose r with
      | some (grp, _) => some grp
      | none => jsCopyRegexGroup rest
    | none => jsCopyRegexGroup rest

/-- the unescaping `applyFilter` performs on the captured group. -/
def unescapeExtracted (grp : Line) : Line :=
  replaceTwo '\\' 't' [' ']
    (replaceTwo '\\' 'r' [' ']
      (replaceTwo '\\' 'n' [' ']
        (replaceTwo '\\' dqChar [dqChar]
          (replaceTwo '\\' sqChar [sqChar] grp))))

/-- the per-entry original-text extraction of `applyFilter`: read the copy
    button's `onclick` attribute (the constant produced by `generateEntry`)
    and run the regex capture; an absent match leaves the empty string. -/
def extractedOriginalText (onclick : Line) : Line :=
  match jsCopyRegexGroup onclick with
  | some grp => unescapeExtracted grp
  | none => []

/-- htmlGenerator.js `applyFilter`: lowercase the input, then classify every
    `.log-entry` (the flattened forest, in document order) by
    `!filterText || originalText.toLowerCase().includes(filterText)` where
    `originalText` comes from `extractedOriginalText` of the copy button's
    onclick attribute.  `true` means the entry keeps the `filtered-hidden`
    class off. -/
def applyFilter (filterValue : Line) (forest : List Tree) : List (Payload × Bool) :=
  let ft := toLowerLine filterValue
  (flattenF forest).map (fun e =>
    (e, (ft = []) || includesSub (toLowerLine (extractedOriginalText copyBtnOnclick)) ft))

/-- the `Filtered Entries` counter after a filter pass. -/
def visibleCountAfterFilter (filterValue : Line) (forest : List Tree) : Nat :=
  ((applyFilter filterValue forest).filter (fun x => x.2)).length

mutual
/-- claim-side filter semantics: an entry matches when its own `rawText`
    contains the filter case-insensitively, or some descendant does. -/
def subtreeMatchesSpec (ft : Line) : Tree → Bool
  | .node v cs => includesSub (toLowerLine v.originalText) (toLowerLine ft)
      || anySubtreeMatchesSpec ft cs

def anySubtreeMatchesSpec (ft : Line) : List Tree → Bool
  | [] => false
  | t :: ts => subtreeMatchesSpec ft t || anySubtreeMatchesSpec ft ts
end

mutual
/-- claim-side visibility list (ancestor-of-match propagation): an entry is
    visible iff the filter is empty or the entry or a descendant matches. -/
def specVisT (ft : Line) : Tree → List (Payload × Bool)
  | .node v cs => (v, (ft = []) || subtreeMatchesSpec ft (.node v cs)) :: specVisF ft cs

def specVisF (ft : Line) : List Tree → List (Payload × Bool)
  | [] => []
  | t :: ts => specVisT ft t ++ specVisF ft ts
end

/-- client view mode. -/
inductive ViewMode where
  | structured
  | plain
deriving DecidableEq, Repr

/-- the persisted client state (localStorage `logParserState`). -/
structure ViewState where
  expandedSections : List (Line × Bool)
  scrollPosition : Nat
  viewMode : ViewMode
  filterText : Line
deriving DecidableEq, Repr

/-- the client-visible page state: per entry-with-children whether its
    children container is shown, the scroll offset, the mode and the filter
    box content. -/
structure PageUI where
  expanded : List (Line × Bool)
  scroll : Nat
  mode : ViewMode
  filter : Line
deriving DecidableEq, Repr

/-- htmlGenerator.js `saveState`: capture the expanded flag of every
    `.children` container, the scroll offset, the mode and the filter text. -/
def saveState (ui : PageUI) : ViewState :=
  ⟨ui.expanded, ui.scroll, ui.mode, ui.filter⟩

def lookupExpanded (m : List (Line × Bool)) (id : Line) : Option Bool :=
  (m.find? (fun kv => kv.1 == id)).map (fun kv => kv.2)

mutual
/-- ids of the entries that render a children container, in document order. -/
def childrenIdsT : Tree → List Line
  | .node v cs => (if cs.isEmpty then [] else [v.id]) ++ childrenIdsF cs

def childrenIdsF : List Tree → List Line
  | [] => []
  | t :: ts => childrenIdsT t ++ childrenIdsF ts
end

/-- htmlGenerator.js `restoreState`, applied to a freshly served page (all
    children containers hidden, scroll at top): the stored mode and filter
    are reapplied, every stored expanded flag is restored onto the matching
    container (ids absent from the store stay collapsed), and the scroll
    offset is restored. -/
def restoreState (domIds : List Line) (s : ViewState) : PageUI :=
  { expanded := domIds.map (fun id => (id, (lookupExpanded s.expandedSections id).getD false))
  , scroll := s.scrollPosition
  , mode := s.viewMode
  , filter := s.filterText }

/-- the live-update reload path: on a `fileChanged` event the client saves
    its state and reloads; the fresh page then runs `restoreState` on the
    stored state. -/
def reloadAfterInvalidation (forest : List Tree) (ui : PageUI) : PageUI :=
  restoreState (childrenIdsF forest) (saveState ui)

/-- the (parent, index) pair `framesPar`/`idxAux` would pass to a frame
    appended after `fs`. -/
def framesParNext : List Frame → Option Nat → Nat → Option Nat × Nat
  | [], par, i => (par, i)
  | f :: rest, _, i => framesParNext rest (some i) (i + 1 + (flattenF f.2).length)

/-- the text a line contributes after indentation stripping and trimming. -/
def lineText (l : Line) : Line := trimJs (l.drop (getIndentLevel l))

/-- the skip test of the builder loop: a line is kept iff its stripped text
    is non-empty. -/
def keepLine (l : Line) : Bool := lineText l ≠ []

/-- the payload built for a kept line. -/
def payloadOf (tz : Int) (l : Line) : Payload := mkPayload tz (lineText l) (getIndentLevel l)

/-- a default payload for list indexing. -/
def dummyPayload : Payload := ⟨[], [], 0, none, none, none, []⟩

/-- the invariant carried through the builder fold: the predicted parent of
    every payload is its nearest preceding strictly-shallower payload; the
    open top frame has no accumulated children yet; the root list is empty
    while the stack is. -/
def StateInv (st : List Frame × List Tree) : Prop :=
  statePar st = (List.range (stateFlat st).length).map
      (nearestSmaller ((stateFlat st).map Payload.level))
  ∧ (∀ f fs, st.1 = f :: fs → f.2 = ([] : List Tree))
  ∧ (st.1 = [] → st.2 = [])

section StructuralLemmas

theorem flattenF_append (ts us : List Tree) :
    flattenF (ts ++ us) = flattenF ts ++ flattenF us := by
  induction ts with
  | nil => simp [flattenF]
  | cons t ts ih => simp [flattenF, ih]

theorem framesFlat_append (fs gs : List Frame) :
    framesFlat (fs ++ gs) = framesFlat fs ++ framesFlat gs := by
  induction fs with
  | nil => simp [framesFlat]
  | cons f fs ih => simp [framesFlat, ih]

theorem parF_append (par : Option Nat) (i : Nat) (ts us : List Tree) :
    parF par i (ts ++ us) = parF par i ts ++ parF par (i + (flattenF ts).length) us := by
  induction ts generalizing i with
  | nil => simp [parF, flattenF]
  | cons t ts ih => simp [parF, flattenF, ih, Nat.add_assoc]

mutual
theorem parT_length (par : Option Nat) (i : Nat) (t : Tree) :
    (parT par i t).length = (flattenT t).length := by
  cases t with
  | node v cs => simp [parT, flattenT, parF_length (some i) (i + 1) cs]

theorem parF_length (par : Option Nat) (i : Nat) (ts : List Tree) :
    (parF par i ts).length = (flattenF ts).length := by
  cases ts with
  | nil => simp [parF, flattenF]
  | cons t ts => simp [parF, flattenF, parT_length par i t, parF_length par (i + (flattenT t).length) ts]
end

theorem framesPar_length (fs : List Frame) (par : Option Nat) (i : Nat) :
    (framesPar fs par i).length = (framesFlat fs).length := by
  induction fs generalizing par i with
  | nil => simp [framesPar, framesFlat]
  | cons f fs ih => simp [framesPar, framesFlat, parF_length, ih]

theorem framesPar_append (fs gs : List Frame) (par : Option Nat) (i : Nat) :
    framesPar (fs ++ gs) par i
      = framesPar fs par i ++
        framesPar gs (framesParNext fs par i).1 (framesParNext fs par i).2 := by
  induction fs generalizing par i with
  | nil => simp [framesPar, framesParNext]
  | cons f fs ih => simp [framesPar, framesParNext, ih]

theorem framesParNext_snd (fs : List Frame) (par : Option Nat) (i : Nat) :
    (framesParNext fs par i).2 = i + (framesFlat fs).length := by
  induction fs generalizing par i with
  | nil => simp [framesParNext, framesFlat]
  | cons f fs ih => simp [framesParNext, framesFlat, ih]; omega

theorem idxAux_append (fs gs : List Frame) (i : Nat) :
    idxAux i (fs ++ gs) = idxAux i fs ++ idxAux (i + (framesFlat fs).length) gs := by
  induction fs generalizing i with
  | nil => simp [idxAux, framesFlat]
  | cons f fs ih =>
    simp [idxAux, framesFlat, ih]
    congr 1
    omega

theorem framesParNext_fst (fs : List Frame) (par : Option Nat) (i : Nat) (h : fs ≠ []) :
    (framesParNext fs par i).1 = some ((idxAux i fs).getLastD 0) := by
  induction fs generalizing par i with
  | nil => exact absurd rfl h
  | cons f fs ih =>
    cases fs with
    | nil => simp [framesParNext, idxAux, List.getLastD]
    | cons g gs =>
      rw [show framesParNext (f :: g :: gs) par i
            = framesParNext (g :: gs) (some i) (i + 1 + (flattenF f.2).length) from rfl]
      rw [ih (some i) (i + 1 + (flattenF f.2).length) (by simp)]
      simp [idxAux, List.getLastD_cons]

end StructuralLemmas

section PopStackEquations

theorem popStack_nil (lvl : Nat) (roots : List Tree) :
    popStack lvl [] roots = ([], roots) := rfl

theorem popStack_stop (lvl : Nat) (f : Frame) (stack : List Frame) (roots : List Tree)
    (h : f.1.level < lvl) :
    popStack lvl (f :: stack) roots = (f :: stack, roots) := by
  have hb : frameTest lvl f = false := by simp [frameTest]; omega
  simp [popStack, List.takeWhile_cons, hb]

theorem popStack_last (lvl : Nat) (f : Frame) (roots : List Tree) (h : lvl ≤ f.1.level) :
    popStack lvl [f] roots = ([], roots ++ [Tree.node f.1 f.2]) := by
  have hb : frameTest lvl f = true := by simp [frameTest, h]
  simp [popStack, List.takeWhile_cons, List.dropWhile_cons, hb, closeOnto]

theorem popStack_pop (lvl : Nat) (f g : Frame) (stack : List Frame) (roots : List Tree)
    (h : lvl ≤ f.1.level) :
    popStack lvl (f :: g :: stack) roots
      = popStack lvl ((g.1, g.2 ++ [Tree.node f.1 f.2]) :: stack) roots := by
  have hb : frameTest lvl f = true := by simp [frameTest, h]
  by_cases h2 : lvl ≤ g.1.level
  · have hb2 : frameTest lvl g = true := by simp [frameTest, h2]
    have hb2b : frameTest lvl (g.1, g.2 ++ [Tree.node f.1 f.2]) = true := hb2
    simp [popStack, List.takeWhile_cons, List.dropWhile_cons, hb, hb2, hb2b, closeOnto]
  · have hb2 : frameTest lvl g = false := by simp [frameTest]; omega
    have hb2b : frameTest lvl (g.1, g.2 ++ [Tree.node f.1 f.2]) = false := hb2
    simp [popStack, List.takeWhile_cons, List.dropWhile_cons, hb, hb2, hb2b, closeOnto]

theorem takeWhile_zero_eq_self (s : List Frame) : s.takeWhile (frameTest 0) = s := by
  induction s with
  | nil => rfl
  | cons f s ih => simp [List.takeWhile_cons, frameTest, ih]

theorem dropWhile_zero_eq_nil (s : List Frame) : s.dropWhile (frameTest 0) = [] := by
  induction s with
  | nil => rfl
  | cons f s ih => simp [List.dropWhile_cons, frameTest, ih]

theorem popStack_zero_stack (s : List Frame) (r : List Tree) : (popStack 0 s r).1 = [] := by
  cases s with
  | nil => rfl
  | cons f s =>
    simp [popStack, takeWhile_zero_eq_self, dropWhile_zero_eq_nil]

end PopStackEquations

section FlatInvariant

theorem stateFlat_cons (p : Payload) (s : List Frame) (r : List Tree) :
    stateFlat ((p, []) :: s, r) = stateFlat (s, r) ++ [p] := by
  simp [stateFlat, framesFlat_append, framesFlat, flattenF]

theorem popStack_flat (lvl : Nat) (stack : List Frame) (roots : List Tree) :
    stateFlat (popStack lvl stack roots) = stateFlat (stack, roots) := by
  obtain ⟨n, hn⟩ : ∃ n, stack.length ≤ n := ⟨stack.length, le_refl _⟩
  induction n generalizing stack roots with
  | zero =>
    have : stack = [] := by
      cases stack with
      | nil => rfl
      | cons f s => simp at hn
    subst this
    simp [popStack_nil]
  | succ n ih =>
    cases stack with
    | nil => simp [popStack_nil]
    | cons f rest =>
      by_cases h : lvl ≤ f.1.level
      · cases rest with
        | nil =>
          rw [popStack_last lvl f roots h]
          simp [stateFlat, framesFlat, flattenF_append, flattenF, flattenT]
        | cons g rest2 =>
          rw [popStack_pop lvl f g rest2 roots h]
          rw [ih ((g.1, g.2 ++ [Tree.node f.1 f.2]) :: rest2) roots (by simp at hn ⊢; omega)]
          simp [stateFlat, framesFlat_append, framesFlat, flattenF_append, flattenF, flattenT]
      · rw [popStack_stop lvl f rest roots (by omega)]

theorem stepLine_flat (tz : Int) (st : List Frame × List Tree) (l : Line) :
    stateFlat (stepLine tz st l)
      = stateFlat st ++ (if keepLine l then [payloadOf tz l] else []) := by
  unfold stepLine
  by_cases h : trimJs (l.drop (getIndentLevel l)) = []
  · have hk : keepLine l = false := by simp [keepLine, lineText, h]
    simp [h, hk]
  · have hk : keepLine l = true := by simp [keepLine, lineText, h]
    rcases hpop : popStack (getIndentLevel l) st.1 st.2 with ⟨s1, r1⟩
    simp only [h, if_false, hpop, hk, if_true]
    have h2 := popStack_flat (getIndentLevel l) st.1 st.2
    rw [hpop] at h2
    rw [stateFlat_cons, h2]
    simp [payloadOf, lineText]

theorem foldl_flat (tz : Int) (lines : List Line) (st : List Frame × List Tree) :
    stateFlat (lines.foldl (stepLine tz) st)
      = stateFlat st ++ (lines.filter keepLine).map (payloadOf tz) := by
  induction lines generalizing st with
  | nil => simp
  | cons l ls ih =>
    rw [List.foldl_cons, ih, stepLine_flat]
    by_cases hk : keepLine l
    · simp [hk, List.filter_cons, List.append_assoc]
    · simp [hk, List.filter_cons]

/-- depth-first flattening of the built forest lists exactly the payloads of
    the kept lines, in input order. -/
theorem flattenF_parseContent (tz : Int) (lines : List Line) :
    flattenF (parseContent tz lines) = (lines.filter keepLine).map (payloadOf tz) := by
  unfold parseContent
  rcases hst : lines.foldl (stepLine tz) ([], []) with ⟨stack, roots⟩
  have h1 := popStack_flat 0 stack roots
  have h2 := popStack_zero_stack stack roots
  have h3 := foldl_flat tz lines ([], [])
  rw [hst] at h3
  rcases hpop : popStack 0 stack roots with ⟨s2, r2⟩
  rw [hpop] at h1 h2
  simp only at h2
  subst h2
  simp only [stateFlat, framesFlat, List.reverse_nil, List.append_nil] at h1
  simp only [stateFlat, framesFlat, List.reverse_nil, List.append_nil, flattenF,
    List.nil_append] at h3
  simp only [hpop]
  rw [h1]
  exact h3

end FlatInvariant

section ParInvariant

theorem statePar_cons (p : Payload) (s : List Frame) (r : List Tree) :
    statePar ((p, []) :: s, r)
      = statePar (s, r) ++
        [(framesParNext s.reverse none (flattenF r).length).1] := by
  simp [statePar, framesPar_append, framesPar, parF, List.append_assoc]

theorem popStack_par (lvl : Nat) (stack : List Frame) (roots : List Tree) :
    statePar (popStack lvl stack roots) = statePar (stack, roots) := by
  obtain ⟨n, hn⟩ : ∃ n, stack.length ≤ n := ⟨stack.length, le_refl _⟩
  induction n generalizing stack roots with
  | zero =>
    have : stack = [] := by
      cases stack with
      | nil => rfl
      | cons f s => simp at hn
    subst this
    simp [popStack_nil]
  | succ n ih =>
    cases stack with
    | nil => simp [popStack_nil]
    | cons f rest =>
      by_cases h : lvl ≤ f.1.level
      · cases rest with
        | nil =>
          rw [popStack_last lvl f roots h]
          simp [statePar, framesPar, parF_append, parF, parT, flattenT, flattenF]
        | cons g rest2 =>
          rw [popStack_pop lvl f g rest2 roots h]
          rw [ih ((g.1, g.2 ++ [Tree.node f.1 f.2]) :: rest2) roots (by simp at hn ⊢; omega)]
          simp [statePar, List.reverse_cons, framesPar_append, framesPar, parF_append,
            parF, parT, flattenT, flattenF_append, flattenF, List.append_assoc,
            Nat.add_assoc]
      · rw [popStack_stop lvl f rest roots (by omega)]

end ParInvariant

section NearestSmallerLemmas

theorem nsAux_none (L : List Nat) (lvl : Nat) :
    ∀ i, nearestSmallerAux L lvl i = none → ∀ t, t < i → lvl ≤ L.getD t 0 := by
  intro i
  induction i with
  | zero => intro _ t ht; omega
  | succ j ih =>
    intro h t ht
    by_cases hj : L.getD j 0 < lvl
    · rw [show nearestSmallerAux L lvl (j + 1)
          = if L.getD j 0 < lvl then some j else nearestSmallerAux L lvl j from rfl,
        if_pos hj] at h
      exact absurd h (by simp)
    · rw [show nearestSmallerAux L lvl (j + 1)
          = if L.getD j 0 < lvl then some j else nearestSmallerAux L lvl j from rfl,
        if_neg hj] at h
      rcases Nat.lt_succ_iff_lt_or_eq.mp ht with h2 | h2
      · exact ih h t h2
      · subst h2; omega

theorem nsAux_some (L : List Nat) (lvl : Nat) :
    ∀ i j, nearestSmallerAux L lvl i = some j →
      j < i ∧ L.getD j 0 < lvl ∧ ∀ t, j < t → t < i → lvl ≤ L.getD t 0 := by
  intro i
  induction i with
  | zero => intro j h; exact absurd h (by simp [nearestSmallerAux])
  | succ k ih =>
    intro j h
    rw [show nearestSmallerAux L lvl (k + 1)
        = if L.getD k 0 < lvl then some k else nearestSmallerAux L lvl k from rfl] at h
    by_cases hk : L.getD k 0 < lvl
    · rw [if_pos hk] at h
      have hj : j = k := by
        have := h
        simp at this
        omega
      subst hj
      exact ⟨Nat.lt_succ_self _, hk, fun t h1 h2 => by omega⟩
    · rw [if_neg hk] at h
      obtain ⟨h1, h2, h3⟩ := ih j h
      refine ⟨by omega, h2, fun t ht1 ht2 => ?_⟩
      rcases Nat.lt_succ_iff_lt_or_eq.mp ht2 with h4 | h4
      · exact h3 t ht1 h4
      · subst h4; omega

theorem nsAux_eq_some (L : List Nat) (lvl : Nat) (i j : Nat)
    (h1 : j < i) (h2 : L.getD j 0 < lvl)
    (h3 : ∀ t, j < t → t < i → lvl ≤ L.getD t 0) :
    nearestSmallerAux L lvl i = some j := by
  induction i with
  | zero => omega
  | succ k ih =>
    rw [show nearestSmallerAux L lvl (k + 1)
        = if L.getD k 0 < lvl then some k else nearestSmallerAux L lvl k from rfl]
    by_cases hk : L.getD k 0 < lvl
    · have : j = k := by
        by_contra hne
        have : lvl ≤ L.getD k 0 := h3 k (by omega) (by omega)
        omega
      subst this
      rw [if_pos hk]
    · have hjk : j < k := by
        rcases Nat.lt_succ_iff_lt_or_eq.mp h1 with h | h
        · exact h
        · subst h; omega
      rw [if_neg hk]
      exact ih hjk (fun t ht1 ht2 => h3 t ht1 (by omega))

theorem nsAux_eq_none (L : List Nat) (lvl : Nat) (i : Nat)
    (h : ∀ t, t < i → lvl ≤ L.getD t 0) :
    nearestSmallerAux L lvl i = none := by
  induction i with
  | zero => rfl
  | succ k ih =>
    have hk : ¬ L.getD k 0 < lvl := by
      have := h k (by omega)
      omega
    rw [show nearestSmallerAux L lvl (k + 1)
        = if L.getD k 0 < lvl then some k else nearestSmallerAux L lvl k from rfl,
      if_neg hk]
    exact ih (fun t ht => h t (by omega))

theorem nsAux_append (L M : List Nat) (lvl : Nat) :
    ∀ i, i ≤ L.length → nearestSmallerAux (L ++ M) lvl i = nearestSmallerAux L lvl i := by
  intro i
  induction i with
  | zero => intro _; rfl
  | succ j ih =>
    intro h
    have hg : (L ++ M).getD j 0 = L.getD j 0 := List.getD_append _ _ _ _ (by omega)
    rw [show nearestSmallerAux (L ++ M) lvl (j + 1)
        = if (L ++ M).getD j 0 < lvl then some j else nearestSmallerAux (L ++ M) lvl j from rfl,
      show nearestSmallerAux L lvl (j + 1)
        = if L.getD j 0 < lvl then some j else nearestSmallerAux L lvl j from rfl,
      hg, ih (by omega)]

theorem nearestSmaller_append_lt (L M : List Nat) (i : Nat) (h : i < L.length) :
    nearestSmaller (L ++ M) i = nearestSmaller L i := by
  unfold nearestSmaller
  rw [List.getD_append _ _ _ _ h, nsAux_append L M _ i (by omega)]

theorem nearestSmaller_append_at (L : List Nat) (x : Nat) :
    nearestSmaller (L ++ [x]) L.length = nearestSmallerAux L x L.length := by
  unfold nearestSmaller
  have hg : (L ++ [x]).getD L.length 0 = x := by
    rw [List.getD_append_right _ _ _ _ (le_refl _)]
    simp
  rw [hg, nsAux_append L [x] x L.length (le_refl _)]

/-- walking a nearest-smaller chain: if every stack index from position `s`
    on carries a level ≥ `lvl`, then every token index after the `(s-1)`-th
    stack index (and not beyond the last stack index) has level ≥ `lvl`. -/
theorem chainGap (L js : List Nat) (lvl : Nat)
    (hchain : ∀ r, r < js.length →
      nearestSmaller L (js.getD r 0) = if r = 0 then none else some (js.getD (r - 1) 0)) :
    ∀ k s, s + k = js.length →
      (∀ r, s ≤ r → r < js.length → lvl ≤ L.getD (js.getD r 0) 0) →
      ∀ t, (s = 0 ∨ js.getD (s - 1) 0 < t) → t ≤ js.getD (js.length - 1) 0 →
        js ≠ [] → lvl ≤ L.getD t 0 := by
  intro k
  induction k with
  | zero =>
    intro s hs hpop t htl htu hne
    have hlen : 1 ≤ js.length := by
      cases js with
      | nil => exact absurd rfl hne
      | cons a l => simp
    rcases htl with h0 | h0
    · omega
    · have he : s - 1 = js.length - 1 := by omega
      rw [he] at h0
      omega
  | succ k ih =>
    intro s hs hpop t htl htu hne
    rcases lt_trichotomy t (js.getD s 0) with h | h | h
    · have hc := hchain s (by omega)
      by_cases hs0 : s = 0
      · subst hs0
        rw [if_pos rfl] at hc
        unfold nearestSmaller at hc
        have hmono := nsAux_none L (L.getD (js.getD 0 0) 0) (js.getD 0 0) hc t h
        calc lvl ≤ L.getD (js.getD 0 0) 0 := hpop 0 (le_refl _) (by omega)
          _ ≤ L.getD t 0 := hmono
      · rw [if_neg hs0] at hc
        unfold nearestSmaller at hc
        obtain ⟨_, _, h3⟩ := nsAux_some L (L.getD (js.getD s 0) 0) (js.getD s 0) _ hc
        have ht1 : js.getD (s - 1) 0 < t := by
          rcases htl with h0 | h0
          · exact absurd h0 hs0
          · exact h0
        calc lvl ≤ L.getD (js.getD s 0) 0 := hpop s (le_refl _) (by omega)
          _ ≤ L.getD t 0 := h3 t ht1 h
    · rw [h]
      exact hpop s (le_refl _) (by omega)
    · refine ih (s + 1) (by omega) (fun r hr1 hr2 => hpop r (by omega) hr2) t ?_ htu hne
      right
      simpa using h

end NearestSmallerLemmas

section PositionalLemmas

theorem idxAux_length (i : Nat) (frames : List Frame) :
    (idxAux i frames).length = frames.length := by
  induction frames generalizing i with
  | nil => rfl
  | cons f rest ih => simp [idxAux, ih]

theorem idxAux_getD_lt (frames : List Frame) (i r : Nat) (hr : r < frames.length) :
    (idxAux i frames).getD r 0 < i + (framesFlat frames).length := by
  induction frames generalizing i r with
  | nil => simp at hr
  | cons f rest ih =>
    cases r with
    | zero =>
      simp only [idxAux, List.getD_cons_zero, framesFlat, List.length_append,
        List.length_cons]
      omega
    | succ r =>
      have h2 := ih (i + 1 + (flattenF f.2).length) r (by simpa using hr)
      simp only [idxAux, List.getD_cons_succ, framesFlat]
      simp only [List.length_append, List.length_cons]
      omega

theorem framesPar_getD (frames : List Frame) (par : Option Nat)
    (pre : List (Option Nat)) (r : Nat) (hr : r < frames.length) :
    (pre ++ framesPar frames par pre.length).getD ((idxAux pre.length frames).getD r 0) none
      = if r = 0 then par else some ((idxAux pre.length frames).getD (r - 1) 0) := by
  induction frames generalizing par pre r with
  | nil => simp at hr
  | cons f rest ih =>
    cases r with
    | zero =>
      simp only [idxAux, List.getD_cons_zero, if_pos rfl]
      rw [List.getD_append_right _ _ _ _ (le_refl _)]
      simp [framesPar]
    | succ r =>
      have hlen : (pre ++ (par :: parF (some pre.length) (pre.length + 1) f.2)).length
          = pre.length + 1 + (flattenF f.2).length := by
        simp only [List.length_append, List.length_cons, parF_length]
        omega
      have hsplit : pre ++ framesPar (f :: rest) par pre.length
          = (pre ++ (par :: parF (some pre.length) (pre.length + 1) f.2))
            ++ framesPar rest (some pre.length)
              (pre ++ (par :: parF (some pre.length) (pre.length + 1) f.2)).length := by
        rw [hlen]
        simp [framesPar, List.append_assoc]
      rw [hsplit, hlen]
      have ih2 := ih (some pre.length)
        (pre ++ (par :: parF (some pre.length) (pre.length + 1) f.2)) r (by simpa using hr)
      rw [hlen] at ih2
      simp only [idxAux, List.getD_cons_succ]
      rw [ih2]
      cases r with
      | zero => simp
      | succ r => simp

theorem framesFlat_getD (frames : List Frame) (pre : List Payload) (r : Nat)
    (hr : r < frames.length) :
    (pre ++ framesFlat frames).getD ((idxAux pre.length frames).getD r 0) dummyPayload
      = (frames.getD r (dummyPayload, [])).1 := by
  induction frames generalizing pre r with
  | nil => simp at hr
  | cons f rest ih =>
    cases r with
    | zero =>
      simp only [idxAux, List.getD_cons_zero]
      rw [List.getD_append_right _ _ _ _ (le_refl _)]
      simp [framesFlat]
    | succ r =>
      have hlen : (pre ++ (f.1 :: flattenF f.2)).length
          = pre.length + 1 + (flattenF f.2).length := by
        simp only [List.length_append, List.length_cons]
        omega
      have hsplit : pre ++ framesFlat (f :: rest)
          = (pre ++ (f.1 :: flattenF f.2)) ++ framesFlat rest := by
        simp [framesFlat, List.append_assoc]
      rw [hsplit]
      have ih2 := ih (pre ++ (f.1 :: flattenF f.2)) r (by simpa using hr)
      rw [hlen] at ih2
      simp only [idxAux, List.getD_cons_succ]
      rw [ih2]

end PositionalLemmas

section MainInvariant

theorem stateInv_init : StateInv ([], []) := by
  refine ⟨?_, ?_, ?_⟩
  · simp [statePar, stateFlat, framesPar, framesFlat, parF, flattenF]
  · intro f fs h; exact absurd h (by simp)
  · intro _; rfl

theorem range_map_getD {β : Type} (F : Nat → β) (m k : Nat) (d : β) (hk : k < m) :
    ((List.range m).map F).getD k d = F k := by
  rw [List.getD_eq_getElem _ _ (by simpa using hk)]
  simp

theorem dropWhile_head_false {α : Type} (p : α → Bool) :
    ∀ (l : List α) (g : α) (rest : List α), l.dropWhile p = g :: rest → p g = false := by
  intro l
  induction l with
  | nil => intro g rest h; exact absurd h (by simp)
  | cons a l ih =>
    intro g rest h
    by_cases hpa : p a
    · rw [List.dropWhile_cons_of_pos hpa] at h
      exact ih g rest h
    · rw [List.dropWhile_cons_of_neg hpa] at h
      cases h
      simpa using hpa

/-- the possible shapes of a `popStack` result: either the stack empties, or
    its new head keeps the payload of the first unpopped frame and the tail
    is that frame's tail; the roots are unchanged in the second shape. -/
theorem popStack_cases (lvl : Nat) (stack : List Frame) (roots : List Tree) :
    ((popStack lvl stack roots).1 = [] ∧
      (stack = [] ∨ stack.dropWhile (frameTest lvl) = [])) ∨
    ∃ g rest2 cs2, stack.dropWhile (frameTest lvl) = g :: rest2 ∧
      (popStack lvl stack roots).1 = (g.1, cs2) :: rest2 ∧
      (popStack lvl stack roots).2 = roots := by
  unfold popStack
  cases htw : stack.takeWhile (frameTest lvl) with
  | nil =>
    cases hdw : stack.dropWhile (frameTest lvl) with
    | nil =>
      have hstack : stack = [] := by
        have h2 := List.takeWhile_append_dropWhile (frameTest lvl) stack
        rw [htw, hdw] at h2
        simpa using h2.symm
      exact Or.inl ⟨hstack, Or.inl hstack⟩
    | cons g rest2 =>
      right
      have h2 := List.takeWhile_append_dropWhile (frameTest lvl) stack
      rw [htw, hdw] at h2
      refine ⟨g, rest2, g.2, rfl, ?_, rfl⟩
      rw [← h2]
      simp
  | cons f more =>
    cases hdw : stack.dropWhile (frameTest lvl) with
    | nil => exact Or.inl ⟨rfl, Or.inr rfl⟩
    | cons g rest2 =>
      exact Or.inr ⟨g, rest2, g.2 ++ [closeOnto more (Tree.node f.1 f.2)], rfl, rfl, rfl⟩

/-- the chain fact: under the parent invariant, each open frame's predicted
    parent (the frame below, or none) is the nearest smaller index. -/
theorem derived_chain (st : List Frame × List Tree)
    (hpar : statePar st = (List.range (stateFlat st).length).map
      (nearestSmaller ((stateFlat st).map Payload.level))) :
    ∀ r, r < st.1.length →
      nearestSmaller ((stateFlat st).map Payload.level) ((stackIdxs st).getD r 0)
        = if r = 0 then none else some ((stackIdxs st).getD (r - 1) 0) := by
  intro r hr
  have hlen0 : (parF none 0 st.2).length = (flattenF st.2).length :=
    parF_length none 0 st.2
  have hpos := framesPar_getD st.1.reverse none (parF none 0 st.2) r (by simpa using hr)
  rw [hlen0] at hpos
  have hsp : statePar st = parF none 0 st.2
      ++ framesPar st.1.reverse none (flattenF st.2).length := rfl
  have hjs : stackIdxs st = idxAux (flattenF st.2).length st.1.reverse := rfl
  rw [← hsp, ← hjs] at hpos
  have hbound : (stackIdxs st).getD r 0 < (stateFlat st).length := by
    have hb := idxAux_getD_lt st.1.reverse (flattenF st.2).length r (by simpa using hr)
    rw [← hjs] at hb
    have hfl : (stateFlat st).length
        = (flattenF st.2).length + (framesFlat st.1.reverse).length := by
      simp [stateFlat]
    omega
  rw [hpar, range_map_getD _ _ _ _ hbound] at hpos
  exact hpos

/-- the level fact: the level at an open frame's index is that frame's level. -/
theorem derived_level (st : List Frame × List Tree) :
    ∀ r, r < st.1.length →
      ((stateFlat st).map Payload.level).getD ((stackIdxs st).getD r 0) 0
        = ((st.1.reverse.getD r (dummyPayload, [])).1).level := by
  intro r hr
  have hmap : ∀ (l : List Payload) (k : Nat),
      (l.map Payload.level).getD k 0 = (l.getD k dummyPayload).level := by
    intro l k
    have h0 : (0 : Nat) = dummyPayload.level := rfl
    rw [h0, List.getD_map]
  rw [hmap]
  have hflat := framesFlat_getD st.1.reverse (flattenF st.2) r (by simpa using hr)
  have hsp : stateFlat st = flattenF st.2 ++ framesFlat st.1.reverse := rfl
  have hjs : stackIdxs st = idxAux (flattenF st.2).length st.1.reverse := rfl
  rw [← hsp, ← hjs] at hflat
  rw [hflat]

/-- the top fact: with the top frame's child list empty, the top frame's
    index is the last position of the processed prefix. -/
theorem derived_top (st : List Frame × List Tree) (f : Frame) (fs : List Frame)
    (hst : st.1 = f :: fs) (hf : f.2 = ([] : List Tree)) :
    (stackIdxs st).getD ((stackIdxs st).length - 1) 0 + 1 = (stateFlat st).length := by
  have hrev : st.1.reverse = fs.reverse ++ [f] := by rw [hst]; simp
  have hjs : stackIdxs st = idxAux (flattenF st.2).length st.1.reverse := rfl
  have hsp : stateFlat st = flattenF st.2 ++ framesFlat st.1.reverse := rfl
  rw [hjs, hsp, hrev, idxAux_append, framesFlat_append]
  simp only [idxAux, framesFlat, hf, flattenF, List.length_append, idxAux_length,
    List.length_cons, List.length_nil, List.append_nil]
  rw [List.getD_append_right _ _ _ _ (by simp [idxAux_length])]
  simp [idxAux_length]
  omega

theorem getD_mem {α : Type} (l : List α) (r : Nat) (d : α) (hr : r < l.length) :
    l.getD r d ∈ l := by
  rw [List.getD_eq_getElem l d hr]
  exact List.getElem_mem hr

/-- correctness of the predicted parent of a freshly pushed frame: it is the
    nearest preceding strictly-shallower index of the processed prefix. -/
theorem newPar_correct (lvl : Nat) (st : List Frame × List Tree)
    (hpar : statePar st = (List.range (stateFlat st).length).map
      (nearestSmaller ((stateFlat st).map Payload.level)))
    (htop : ∀ f fs, st.1 = f :: fs → f.2 = ([] : List Tree))
    (hemp : st.1 = [] → st.2 = []) :
    (framesParNext (popStack lvl st.1 st.2).1.reverse none
        (flattenF (popStack lvl st.1 st.2).2).length).1
      = nearestSmallerAux ((stateFlat st).map Payload.level) lvl (stateFlat st).length := by
  have hjs : stackIdxs st = idxAux (flattenF st.2).length st.1.reverse := rfl
  have hjslen : (stackIdxs st).length = st.1.length := by
    rw [hjs, idxAux_length, List.length_reverse]
  have hnlen : (stateFlat st).length
      = (flattenF st.2).length + (framesFlat st.1.reverse).length := by
    simp [stateFlat]
  rcases popStack_cases lvl st.1 st.2 with ⟨h1, h2⟩ | ⟨g, rest2, cs2, hdw, h1, h2⟩
  · -- the stack empties: the new entry is a forest root
    rw [h1]
    simp only [List.reverse_nil, framesParNext]
    symm
    apply nsAux_eq_none
    rcases h2 with h2 | h2
    · -- the stack was empty: nothing processed yet
      have hr2 : st.2 = [] := hemp h2
      intro t ht
      rw [hnlen, h2, hr2] at ht
      simp [flattenF, framesFlat] at ht
    · -- every open frame popped: every processed level is ≥ lvl
      cases hst1 : st.1 with
      | nil =>
        have hr2 : st.2 = [] := hemp hst1
        intro t ht
        rw [hnlen, hst1, hr2] at ht
        simp [flattenF, framesFlat] at ht
      | cons f fs =>
        have hall : ∀ x ∈ st.1, frameTest lvl x = true := by
          rw [← List.dropWhile_eq_nil_iff]
          exact h2
        have hchain := derived_chain st hpar
        have hlevel := derived_level st
        have htopf := derived_top st f fs hst1 (htop f fs hst1)
        have hpop0 : ∀ r, 0 ≤ r → r < (stackIdxs st).length →
            lvl ≤ ((stateFlat st).map Payload.level).getD ((stackIdxs st).getD r 0) 0 := by
          intro r _ hr
          rw [hjslen] at hr
          rw [hlevel r hr]
          have hmem : st.1.reverse.getD r (dummyPayload, []) ∈ st.1.reverse :=
            getD_mem _ r _ (by simpa using hr)
          have h6 := hall _ (List.mem_reverse.mp hmem)
          simp only [frameTest, decide_eq_true_eq] at h6
          exact h6
        intro t ht
        have hkey := chainGap ((stateFlat st).map Payload.level) (stackIdxs st) lvl
          (fun r hr => hchain r (by omega)) (stackIdxs st).length 0 (by omega) hpop0 t
          (Or.inl rfl) ?_ ?_
        · exact hkey
        · have hlast : (stackIdxs st).getD ((stackIdxs st).length - 1) 0 + 1
              = (stateFlat st).length := htopf
          omega
        · have : 0 < (stackIdxs st).length := by
            rw [hjslen, hst1]; simp
          exact List.ne_nil_of_length_pos this
  · -- an unpopped frame remains: the new entry becomes its child
    rw [h1, h2]
    have hsplit : st.1 = st.1.takeWhile (frameTest lvl) ++ (g :: rest2) := by
      rw [← hdw]
      exact (List.takeWhile_append_dropWhile _ _).symm
    cases hst1 : st.1 with
    | nil => rw [hst1] at hsplit; exact absurd hsplit.symm (by simp)
    | cons f fs =>
    have hchain := derived_chain st hpar
    have hlevel := derived_level st
    have htopf := derived_top st f fs hst1 (htop f fs hst1)
    -- the new head's predicted parent index
    have hrev1 : ((g.1, cs2) :: rest2).reverse = rest2.reverse ++ [(g.1, cs2)] := by simp
    have hne : rest2.reverse ++ [(g.1, cs2)] ≠ [] := by simp
    rw [hrev1, framesParNext_fst _ _ _ hne, idxAux_append]
    have hlastd : ((idxAux (flattenF st.2).length rest2.reverse
          ++ idxAux ((flattenF st.2).length + (framesFlat rest2.reverse).length)
            [(g.1, cs2)]).getLastD 0)
        = (flattenF st.2).length + (framesFlat rest2.reverse).length := by
      simp [idxAux]
    rw [hlastd]
    -- the same number is the stack index of the first unpopped frame
    have hrevsplit : st.1.reverse = (rest2.reverse ++ [g]) ++ (st.1.takeWhile (frameTest lvl)).reverse := by
      conv_lhs => rw [hsplit]
      simp
    have hjq : (stackIdxs st).getD rest2.length 0
        = (flattenF st.2).length + (framesFlat rest2.reverse).length := by
      rw [hjs, hrevsplit, idxAux_append, List.getD_append _ _ _ _
        (by rw [idxAux_length]; simp), idxAux_append,
        List.getD_append_right _ _ _ _ (by rw [idxAux_length, List.length_reverse]),
        idxAux_length, List.length_reverse]
      simp [idxAux]
    symm
    apply nsAux_eq_some
    · -- the parent index is inside the processed prefix
      have hb := idxAux_getD_lt st.1.reverse (flattenF st.2).length rest2.length
        (by rw [List.length_reverse, hsplit]; simp; omega)
      rw [← hjs] at hb
      rw [hjq] at hb
      omega
    · -- the parent frame is strictly shallower than the new entry
      have hgd : st.1.reverse.getD rest2.length (dummyPayload, []) = g := by
        rw [hrevsplit, List.getD_append _ _ _ _ (by simp),
          List.getD_append_right _ _ _ _ (by simp), List.length_reverse]
        simp
      have hl := hlevel rest2.length (by rw [hst1] at hsplit ⊢; rw [hsplit]; simp; omega)
      rw [hgd] at hl
      rw [← hjq, hl]
      have hgf : frameTest lvl g = false := dropWhile_head_false _ st.1 g rest2 hdw
      simp [frameTest] at hgf
      omega
    · -- everything after the parent index carries level ≥ lvl
      intro t ht1 ht2
      have hpopped : ∀ r, rest2.length + 1 ≤ r → r < (stackIdxs st).length →
          lvl ≤ ((stateFlat st).map Payload.level).getD ((stackIdxs st).getD r 0) 0 := by
        intro r hr1 hr2
        rw [hjslen] at hr2
        rw [hlevel r hr2]
        have hlen3 : st.1.length
            = (st.1.takeWhile (frameTest lvl)).length + (rest2.length + 1) := by
          conv_lhs => rw [hsplit]
          simp
        have hgd : st.1.reverse.getD r (dummyPayload, [])
            ∈ (st.1.takeWhile (frameTest lvl)).reverse := by
          rw [hrevsplit, List.getD_append_right _ _ _ _ (by simp; omega)]
          apply getD_mem
          simp only [List.length_append, List.length_reverse, List.length_cons,
            List.length_nil]
          omega
        have hmem2 : st.1.reverse.getD r (dummyPayload, [])
            ∈ st.1.takeWhile (frameTest lvl) := List.mem_reverse.mp hgd
        have h6 := List.mem_takeWhile_imp hmem2
        simp only [frameTest, decide_eq_true_eq] at h6
        exact h6
      have hkey := chainGap ((stateFlat st).map Payload.level) (stackIdxs st) lvl
        (fun r hr => hchain r (by omega)) ((stackIdxs st).length - (rest2.length + 1))
        (rest2.length + 1) ?_ hpopped t ?_ ?_ ?_
      · exact hkey
      · have hlen3 : st.1.length
            = (st.1.takeWhile (frameTest lvl)).length + (rest2.length + 1) := by
          conv_lhs => rw [hsplit]
          simp
        rw [hjslen]
        omega
      · right
        rw [Nat.add_sub_cancel, hjq]
        exact ht1
      · have hlast : (stackIdxs st).getD ((stackIdxs st).length - 1) 0 + 1
            = (stateFlat st).length := htopf
        omega
      · have : 0 < (stackIdxs st).length := by
          rw [hjslen, hst1]; simp
        exact List.ne_nil_of_length_pos this

theorem stepLine_inv (tz : Int) (st : List Frame × List Tree) (l : Line)
    (h : StateInv st) : StateInv (stepLine tz st l) := by
  obtain ⟨hpar, htop, hemp⟩ := h
  by_cases hk : trimJs (l.drop (getIndentLevel l)) = []
  · have hid : stepLine tz st l = st := by
      unfold stepLine
      simp [hk]
    rw [hid]
    exact ⟨hpar, htop, hemp⟩
  · rcases hpop : popStack (getIndentLevel l) st.1 st.2 with ⟨s1, r1⟩
    have hstep : stepLine tz st l
        = ((mkPayload tz (trimJs (l.drop (getIndentLevel l))) (getIndentLevel l), []) :: s1, r1) := by
      unfold stepLine
      simp [hk, hpop]
    rw [hstep]
    set p := mkPayload tz (trimJs (l.drop (getIndentLevel l))) (getIndentLevel l) with hpdef
    refine ⟨?_, ?_, ?_⟩
    · have hflatpop := popStack_flat (getIndentLevel l) st.1 st.2
      rw [hpop] at hflatpop
      have hparpop := popStack_par (getIndentLevel l) st.1 st.2
      rw [hpop] at hparpop
      have hnp := newPar_correct (getIndentLevel l) st hpar htop hemp
      rw [hpop] at hnp
      rw [statePar_cons, hparpop, hpar, stateFlat_cons, hflatpop]
      have hmap2 : ((stateFlat st ++ [p]).map Payload.level)
          = (stateFlat st).map Payload.level ++ [getIndentLevel l] := by
        simp [hpdef, mkPayload]
      have hlen2 : (stateFlat st ++ [p]).length = (stateFlat st).length + 1 := by simp
      rw [hmap2, hlen2, List.range_succ, List.map_append, List.map_cons, List.map_nil]
      have hLlen : ((stateFlat st).map Payload.level).length = (stateFlat st).length := by
        simp
      congr 1
      · apply List.map_congr_left
        intro i hi
        rw [List.mem_range] at hi
        exact (nearestSmaller_append_lt _ [getIndentLevel l] i (by omega)).symm
      · congr 1
        have hfin : nearestSmaller ((stateFlat st).map Payload.level ++ [getIndentLevel l])
              (stateFlat st).length
            = nearestSmallerAux ((stateFlat st).map Payload.level) (getIndentLevel l)
              (stateFlat st).length := by
          conv_lhs => rw [← hLlen]
          conv_rhs => rw [← hLlen]
          exact nearestSmaller_append_at _ _
        rw [hfin]
        exact hnp
    · intro f fs hf
      cases hf
      rfl
    · intro habs
      exact absurd habs (by simp)

theorem foldl_inv (tz : Int) (lines : List Line) :
    StateInv (lines.foldl (stepLine tz) ([], [])) := by
  have haux : ∀ st, StateInv st → StateInv (lines.foldl (stepLine tz) st) := by
    induction lines with
    | nil => intro st h; exact h
    | cons l ls ih => intro st h; exact ih (stepLine tz st l) (stepLine_inv tz st l h)
  exact haux ([], []) stateInv_init

/-- the parent of every entry of the built forest, in depth-first numbering,
    is the nearest preceding entry with strictly smaller level. -/
theorem parents_parseContent (tz : Int) (lines : List Line) :
    parents (parseContent tz lines)
      = (List.range ((lines.filter keepLine).map (payloadOf tz)).length).map
          (nearestSmaller (((lines.filter keepLine).map (payloadOf tz)).map Payload.level)) := by
  have hinv := foldl_inv tz lines
  have hflat := foldl_flat tz lines ([], [])
  rcases hst : lines.foldl (stepLine tz) ([], []) with ⟨stack, roots⟩
  rw [hst] at hinv hflat
  obtain ⟨hpar, _, _⟩ := hinv
  rw [show stateFlat ([], ([] : List Tree)) = [] from rfl, List.nil_append] at hflat
  have hparpop := popStack_par 0 stack roots
  have hzero := popStack_zero_stack stack roots
  rcases hpop2 : popStack 0 stack roots with ⟨s2, r2⟩
  rw [hpop2] at hparpop hzero
  simp only at hzero
  subst hzero
  have hpc : parseContent tz lines = r2 := by
    show (popStack 0 (lines.foldl (stepLine tz) ([], [])).1
      (lines.foldl (stepLine tz) ([], [])).2).2 = r2
    rw [hst]
    exact congrArg Prod.snd hpop2
  rw [hpc]
  have hsp2 : statePar ([], r2) = parents r2 := by
    simp [statePar, framesPar, parents]
  rw [← hsp2, hparpop, hpar, hflat]

end MainInvariant

section SupportLemmas

theorem getIndentLevel_eq_takeWhile (l : Line) :
    getIndentLevel l = (l.takeWhile (fun c => c = '\t')).length := by
  have h : ∀ (cs : Line), getIndentLevel.go cs = (cs.takeWhile (fun c => c = '\t')).length := by
    intro cs
    induction cs with
    | nil => rfl
    | cons c rest ih =>
      by_cases hc : c = '\t'
      · simp [getIndentLevel.go, List.takeWhile_cons, hc, ih]
      · simp [getIndentLevel.go, List.takeWhile_cons, hc]
  exact h l

theorem trimJs_cons_ws (c : Char) (rest : Line) (h : isJsWhitespace c = true) :
    trimJs (c :: rest) = trimJs rest := by
  unfold trimJs
  rw [List.dropWhile_cons_of_pos h]

theorem trimJs_drop_indent (l : Line) : trimJs (l.drop (getIndentLevel l)) = trimJs l := by
  induction l with
  | nil => rfl
  | cons c rest ih =>
    by_cases hc : c = '\t'
    · have h1 : getIndentLevel (c :: rest) = getIndentLevel rest + 1 := by
        simp [getIndentLevel, getIndentLevel.go, hc]
      rw [h1, List.drop_succ_cons, ih, hc,
        trimJs_cons_ws '\t' rest (by simp [isJsWhitespace])]
    · have h1 : getIndentLevel (c :: rest) = 0 := by
        simp [getIndentLevel, getIndentLevel.go, hc]
      rw [h1, List.drop_zero]

theorem keepLine_of_trim_ne (l : Line) (h : ¬ trimJs l = []) : keepLine l = true := by
  simp only [keepLine, lineText, trimJs_drop_indent]
  simpa using h

/-- the reader fold, characterized: the kept lines are the non-blank lines
    accepted by the timestamp test, in order, and the total counts every
    non-blank line. -/
theorem readStats_fold (tz cutoff : Int) (lines : List Line) :
    ∀ acc : List Line × Nat,
      lines.foldl (readStatsStep tz cutoff) acc
        = (acc.1 ++ (lines.filter (fun l => !(trimJs l == []) && tsAccept tz cutoff l)),
           acc.2 + (lines.filter (fun l => !(trimJs l == []))).length) := by
  induction lines with
  | nil => intro acc; simp
  | cons l ls ih =>
    intro acc
    rw [List.foldl_cons, ih]
    by_cases hb : trimJs l = []
    · have hs : readStatsStep tz cutoff acc l = acc := by
        simp [readStatsStep, hb]
      rw [hs]
      simp [List.filter_cons, hb]
    · by_cases ht : tsAccept tz cutoff l = true
      · have hs : readStatsStep tz cutoff acc l = (acc.1 ++ [l], acc.2 + 1) := by
          simp [readStatsStep, hb, ht]
        rw [hs]
        simp [List.filter_cons, hb, ht, List.append_assoc]
        omega
      · have hs : readStatsStep tz cutoff acc l = (acc.1, acc.2 + 1) := by
          simp [readStatsStep, hb, ht]
        rw [hs]
        simp [List.filter_cons, hb, ht]
        omega

theorem readStats_recentLines (tz : Int) (size : Nat) (lines : List Line) (cutoff : Int) :
    (readRecentLinesWithStats tz size lines cutoff).recentLines
      = lines.filter (fun l => !(trimJs l == []) && tsAccept tz cutoff l) := by
  unfold readRecentLinesWithStats
  rw [readStats_fold tz cutoff lines ([], 0)]
  simp

theorem readStats_totalRecords (tz : Int) (size : Nat) (lines : List Line) (cutoff : Int) :
    (readRecentLinesWithStats tz size lines cutoff).totalRecords
      = (lines.filter (fun l => !(trimJs l == []))).length := by
  unfold readRecentLinesWithStats
  rw [readStats_fold tz cutoff lines ([], 0)]
  simp

end SupportLemmas

section ClaimTheorems

/-- C3: in every forest produced by the tree builder, each entry's parent in
    depth-first numbering is the nearest preceding entry with strictly
    smaller depth (`none`, a forest root, when no preceding entry is
    shallower); consequently every child's depth strictly exceeds its
    parent's. -/
theorem C3_nearest_ancestor (tz : Int) (lines : List Line) :
    (parents (parseContent tz lines)
      = (List.range (flattenF (parseContent tz lines)).length).map
          (nearestSmaller ((flattenF (parseContent tz lines)).map Payload.level)))
    ∧ (∀ i j, (parents (parseContent tz lines)).getD i none = some j →
        ((flattenF (parseContent tz lines)).map Payload.level).getD j 0
          < ((flattenF (parseContent tz lines)).map Payload.level).getD i 0) := by
  have hfl := flattenF_parseContent tz lines
  have hp := parents_parseContent tz lines
  rw [hfl]
  constructor
  · rw [hp]
  · intro i j hij
    rw [hp] at hij
    by_cases hi : i < ((lines.filter keepLine).map (payloadOf tz)).length
    · rw [range_map_getD _ _ _ _ hi] at hij
      unfold nearestSmaller at hij
      obtain ⟨_, h2, _⟩ := nsAux_some _ _ _ _ hij
      exact h2
    · rw [List.getD_eq_default _ _ (by
        simp only [List.length_map, List.length_range]
        simp only [List.length_map] at hi
        omega)] at hij
      exact absurd hij (by simp)

/-- C4: for an input sequence of lines in which no line is blank after
    indentation stripping, the depth-first flattening of the built forest
    reproduces the original line order exactly — one entry per line, in
    order, carrying that line's text. -/
theorem C4_roundtrip (tz : Int) (lines : List Line)
    (h : ∀ l ∈ lines, lineText l ≠ []) :
    (flattenF (parseContent tz lines)).map Payload.originalText = lines.map lineText := by
  rw [flattenF_parseContent]
  have hfilter : lines.filter keepLine = lines := by
    apply List.filter_eq_self.mpr
    intro a ha
    simp [keepLine, h a ha]
  rw [hfilter, List.map_map]
  rfl

theorem C4_roundtrip_witness :
    (∀ l ∈ (["A".data, "\tB".data, "\tC".data, "\t\tD".data] : List Line), lineText l ≠ [])
    ∧ (flattenF (parseContent 0 ["A".data, "\tB".data, "\tC".data, "\t\tD".data])).map
        Payload.originalText
      = (["A".data, "\tB".data, "\tC".data, "\t\tD".data] : List Line).map lineText :=
  ⟨by decide, C4_roundtrip 0 ["A".data, "\tB".data, "\tC".data, "\t\tD".data] (by decide)⟩

/-- C9: for every line, the depth assigned by the tree builder equals the
    count of the line's leading tab characters, and a leading space
    contributes no depth. -/
theorem C9_depth_is_leading_tabs (tz : Int) (lines : List Line)
    (h : ∀ l ∈ lines, lineText l ≠ []) :
    ((flattenF (parseContent tz lines)).map Payload.level
      = lines.map (fun l => (l.takeWhile (fun c => c = '\t')).length))
    ∧ (∀ s : Line, getIndentLevel (' ' :: s) = 0) := by
  constructor
  · rw [flattenF_parseContent]
    have hfilter : lines.filter keepLine = lines := by
      apply List.filter_eq_self.mpr
      intro a ha
      simp [keepLine, h a ha]
    rw [hfilter, List.map_map]
    apply List.map_congr_left
    intro a _
    show getIndentLevel a = _
    exact getIndentLevel_eq_takeWhile a
  · intro s
    rfl

theorem C9_depth_is_leading_tabs_witness :
    (∀ l ∈ (["x".data, "\t y".data, " \tz".data] : List Line), lineText l ≠ [])
    ∧ (((flattenF (parseContent 0 ["x".data, "\t y".data, " \tz".data])).map Payload.level
        = (["x".data, "\t y".data, " \tz".data] : List Line).map
            (fun l => (l.takeWhile (fun c => c = '\t')).length))
      ∧ (∀ s : Line, getIndentLevel (' ' :: s) = 0)) :=
  ⟨by decide, C9_depth_is_leading_tabs 0 ["x".data, "\t y".data, " \tz".data] (by decide)⟩

/-- C5: the time-window selector counts every non-blank line in
    `totalRecords`; a line enters `recentLines` (whose length is reported as
    the in-window count) iff it is non-blank and its timestamp test passes;
    and the test passes iff the line carries an extractable (validly parsed)
    timestamp that is ≥ the cutoff instant — inclusive at the boundary.
    Lines with no detectable timestamp fail the test but are still counted
    in totals. -/
theorem C5_time_window (tz cutoff : Int) (size : Nat) (lines : List Line) :
    ((readRecentLinesWithStats tz size lines cutoff).totalRecords
      = (lines.filter (fun l => !(trimJs l == []))).length)
    ∧ ((readRecentLinesWithStats tz size lines cutoff).recentLines
      = lines.filter (fun l => !(trimJs l == []) && tsAccept tz cutoff l))
    ∧ (∀ l : Line, tsAccept tz cutoff l = true
        ↔ ∃ m : Int, extractTimestamp tz l = some (some m) ∧ cutoff ≤ m) := by
  refine ⟨readStats_totalRecords tz size lines cutoff,
    readStats_recentLines tz size lines cutoff, ?_⟩
  intro l
  unfold tsAccept
  constructor
  · intro ht
    cases he : extractTimestamp tz l with
    | none => rw [he] at ht; simp at ht
    | some v =>
      cases v with
      | none => rw [he] at ht; simp at ht
      | some m =>
        rw [he] at ht
        simp at ht
        exact ⟨m, rfl, ht⟩
  · intro ⟨m, he, hm⟩
    rw [he]
    simpa using hm

/-- C10: for every successfully read file, the reported
    `recordsPassedCutoff` equals the total number of entries (at all depths)
    in the forest returned alongside it. -/
theorem C10_stats_match_entries (tz cutoff : Int) (size : Nat) (lines : List Line) :
    (parseLogFileWithStats tz cutoff (.ok size lines)).stats.recordsPassedCutoff
      = (flattenF (parseLogFileWithStats tz cutoff (.ok size lines)).entries).length := by
  show (readRecentLinesWithStats tz size lines cutoff).recentLines.length
      = (flattenF (parseContent tz
          (readRecentLinesWithStats tz size lines cutoff).recentLines)).length
  rw [flattenF_parseContent]
  have hfilter : (readRecentLinesWithStats tz size lines cutoff).recentLines.filter keepLine
      = (readRecentLinesWithStats tz size lines cutoff).recentLines := by
    apply List.filter_eq_self.mpr
    intro a ha
    rw [readStats_recentLines] at ha
    have := List.of_mem_filter ha
    simp at this
    exact keepLine_of_trim_ne a this.1
  rw [hfilter, List.length_map]

end ClaimTheorems

section RenderingLemmas

/-- the attribute escape/decode round trip: what `getAttribute` (and hence
    the clipboard) receives is exactly the text placed in the attribute. -/
theorem decode_escape (s : Line) : decodeAttrEntities (escapeForDataAttribute s) = s := by
  induction s with
  | nil => rfl
  | cons c rest ih =>
    by_cases h1 : c = '&'
    · subst h1
      show decodeAttrEntities ('&' :: 'a' :: 'm' :: 'p' :: ';' :: escapeForDataAttribute rest) = _
      rw [show decodeAttrEntities ('&' :: 'a' :: 'm' :: 'p' :: ';' :: escapeForDataAttribute rest)
          = '&' :: decodeAttrEntities (escapeForDataAttribute rest) from rfl, ih]
    · by_cases h2 : c = dqChar
      · subst h2
        show decodeAttrEntities
          ('&' :: 'q' :: 'u' :: 'o' :: 't' :: ';' :: escapeForDataAttribute rest) = _
        rw [show decodeAttrEntities
              ('&' :: 'q' :: 'u' :: 'o' :: 't' :: ';' :: escapeForDataAttribute rest)
            = dqChar :: decodeAttrEntities (escapeForDataAttribute rest) from rfl, ih]
      · by_cases h3 : c = sqChar
        · subst h3
          show decodeAttrEntities
            ('&' :: '#' :: '3' :: '9' :: ';' :: escapeForDataAttribute rest) = _
          rw [show decodeAttrEntities
                ('&' :: '#' :: '3' :: '9' :: ';' :: escapeForDataAttribute rest)
              = sqChar :: decodeAttrEntities (escapeForDataAttribute rest) from rfl, ih]
        · have hesc : escapeForDataAttribute (c :: rest) = c :: escapeForDataAttribute rest := by
            simp [escapeForDataAttribute, h1, h2, h3]
          rw [hesc]
          simp [decodeAttrEntities, h1, ih]

theorem renderFold_acc (proc : Line → Bool → Line × Bool) (ts : List AnsiTok) :
    ∀ (out : Line) (s : Bool),
      ts.foldl (renderStepFn proc) (out, s)
        = (out ++ (renderFold proc ts s).1, (renderFold proc ts s).2) := by
  induction ts with
  | nil => intro out s; simp [renderFold]
  | cons t ts ih =>
    intro out s
    rw [List.foldl_cons]
    cases t with
    | inl txt =>
      rw [show renderStepFn proc (out, s) (.inl txt) = (out ++ txt, s) from rfl, ih]
      have h2 : renderFold proc (.inl txt :: ts) s
          = (txt ++ (renderFold proc ts s).1, (renderFold proc ts s).2) := by
        rw [show renderFold proc (.inl txt :: ts) s
            = List.foldl (renderStepFn proc) (renderStepFn proc ([], s) (.inl txt)) ts from rfl,
          show renderStepFn proc ([], s) (.inl txt) = (txt, s) from rfl, ih txt s]
      rw [h2]
      simp [List.append_assoc]
    | inr code =>
      rw [show renderStepFn proc (out, s) (.inr code)
          = (out ++ (proc code s).1, (proc code s).2) from rfl, ih]
      have h2 : renderFold proc (.inr code :: ts) s
          = ((proc code s).1 ++ (renderFold proc ts (proc code s).2).1,
             (renderFold proc ts (proc code s).2).2) := by
        rw [show renderFold proc (.inr code :: ts) s
            = List.foldl (renderStepFn proc) (renderStepFn proc ([], s) (.inr code)) ts from rfl,
          show renderStepFn proc ([], s) (.inr code)
            = ((proc code s).1, (proc code s).2) from rfl,
          ih (proc code s).1 (proc code s).2]
      rw [h2]
      simp [List.append_assoc]

theorem renderFold_snoc (proc : Line → Bool → Line × Bool) (ts : List AnsiTok)
    (t : AnsiTok) (s : Bool) :
    renderFold proc (ts ++ [t]) s = renderStepFn proc (renderFold proc ts s) t := by
  unfold renderFold
  rw [List.foldl_append]
  rfl

theorem ansiSpecRender_append (proc : Line → Bool → Line × Bool) (ts us : List AnsiTok) :
    ∀ s : Bool,
      ansiSpecRender proc (ts ++ us) s
        = (renderFold proc ts s).1 ++ ansiSpecRender proc us (renderFold proc ts s).2 := by
  induction ts with
  | nil => intro s; simp [renderFold, ansiSpecRender]
  | cons t ts ih =>
    intro s
    cases t with
    | inl txt =>
      rw [List.cons_append,
        show ansiSpecRender proc (.inl txt :: (ts ++ us)) s
          = txt ++ ansiSpecRender proc (ts ++ us) s from rfl, ih s]
      have h2 : renderFold proc (.inl txt :: ts) s
          = (txt ++ (renderFold proc ts s).1, (renderFold proc ts s).2) := by
        rw [show renderFold proc (.inl txt :: ts) s
            = List.foldl (renderStepFn proc) (renderStepFn proc ([], s) (.inl txt)) ts from rfl,
          show renderStepFn proc ([], s) (.inl txt) = (txt, s) from rfl,
          renderFold_acc proc ts txt s]
      rw [h2]
      simp [List.append_assoc]
    | inr code =>
      rw [List.cons_append,
        show ansiSpecRender proc (.inr code :: (ts ++ us)) s
          = (proc code s).1 ++ ansiSpecRender proc (ts ++ us) (proc code s).2 from rfl,
        ih (proc code s).2]
      have h2 : renderFold proc (.inr code :: ts) s
          = ((proc code s).1 ++ (renderFold proc ts (proc code s).2).1,
             (renderFold proc ts (proc code s).2).2) := by
        rw [show renderFold proc (.inr code :: ts) s
            = List.foldl (renderStepFn proc) (renderStepFn proc ([], s) (.inr code)) ts from rfl,
          show renderStepFn proc ([], s) (.inr code)
            = ((proc code s).1, (proc code s).2) from rfl,
          renderFold_acc proc ts (proc code s).1 (proc code s).2]
      rw [h2]
      simp [List.append_assoc]

theorem ansiSpecRender_eq_fold (proc : Line → Bool → Line × Bool) (ts : List AnsiTok)
    (s : Bool) :
    ansiSpecRender proc ts s
      = (renderFold proc ts s).1
        ++ (if (renderFold proc ts s).2 then closeSpanStr else []) := by
  have h := ansiSpecRender_append proc ts [] s
  rw [List.append_nil] at h
  rw [h]
  rfl

/-- one scanner character preserves the correspondence between the rendering
    scan and the tokenizing scan. -/
theorem ansiStep_tokStep (c : Char) (toks : List AnsiTok) (mode : AnsiMode)
    (toks2 : List AnsiTok) (mode2 : AnsiMode) (htk : tokStep (toks, mode) c = (toks2, mode2)) :
    ansiStep ((renderFold processCodes toks false).1, mode,
        (renderFold processCodes toks false).2) c
      = ((renderFold processCodes toks2 false).1, mode2,
         (renderFold processCodes toks2 false).2) := by
  cases mode with
  | plain =>
    by_cases hc : c = escChar
    · rw [show tokStep (toks, .plain) c = (toks, .sawEsc) from by simp [tokStep, hc]] at htk
      cases htk
      simp [ansiStep, hc]
    · rw [show tokStep (toks, .plain) c = (toks ++ [.inl [c]], .plain) from by
        simp [tokStep, hc]] at htk
      cases htk
      rw [renderFold_snoc]
      simp [ansiStep, hc, renderStepFn]
  | sawEsc =>
    by_cases hb : c = '['
    · rw [show tokStep (toks, .sawEsc) c = (toks, .inCode []) from by simp [tokStep, hb]] at htk
      cases htk
      simp [ansiStep, hb]
    · by_cases hc : c = escChar
      · subst hc
        rw [show tokStep (toks, .sawEsc) escChar = (toks ++ [.inl [escChar]], .sawEsc) from by
          simp [tokStep, hb]] at htk
        cases htk
        rw [renderFold_snoc]
        simp [ansiStep, hb, renderStepFn]
      · rw [show tokStep (toks, .sawEsc) c = (toks ++ [.inl [escChar, c]], .plain) from by
          simp [tokStep, hb, hc]] at htk
        cases htk
        rw [renderFold_snoc]
        simp [ansiStep, hb, hc, renderStepFn]
  | inCode acc =>
    by_cases hm : c = 'm'
    · rw [show tokStep (toks, .inCode acc) c = (toks ++ [.inr acc], .plain) from by
        simp [tokStep, hm]] at htk
      cases htk
      rw [renderFold_snoc]
      simp [ansiStep, hm, renderStepFn]
    · by_cases hd : isCodeChar c = true
      · rw [show tokStep (toks, .inCode acc) c = (toks, .inCode (acc ++ [c])) from by
          simp [tokStep, hm, hd]] at htk
        cases htk
        simp [ansiStep, hm, hd]
      · by_cases hc : c = escChar
        · subst hc
          rw [show tokStep (toks, .inCode acc) escChar
              = (toks ++ [.inl (escChar :: '[' :: acc)], .sawEsc) from by
            simp [tokStep, hm, hd]] at htk
          cases htk
          rw [renderFold_snoc]
          simp [ansiStep, hm, hd, renderStepFn]
        · rw [show tokStep (toks, .inCode acc) c
            = (toks ++ [.inl (escChar :: '[' :: acc ++ [c])], .plain) from by
            simp [tokStep, hm, hd, hc]] at htk
          cases htk
          rw [renderFold_snoc]
          simp [ansiStep, hm, hd, hc, renderStepFn]

theorem scan_agree (cs : List Char) : ∀ (toks : List AnsiTok) (mode : AnsiMode),
    cs.foldl ansiStep
        ((renderFold processCodes toks false).1, mode, (renderFold processCodes toks false).2)
      = ((renderFold processCodes (cs.foldl tokStep (toks, mode)).1 false).1,
         (cs.foldl tokStep (toks, mode)).2,
         (renderFold processCodes (cs.foldl tokStep (toks, mode)).1 false).2) := by
  induction cs with
  | nil => intro toks mode; rfl
  | cons c cs ih =>
    intro toks mode
    rw [List.foldl_cons, List.foldl_cons]
    rcases htk : tokStep (toks, mode) c with ⟨toks2, mode2⟩
    rw [ansiStep_tokStep c toks mode toks2 mode2 htk]
    exact ih toks2 mode2

end RenderingLemmas

section ClaimTheoremsTwo

/-- C8 counterexample: on `ESC[31m A ESC[m B`, the code leaves the span open
    across `B` (the bare `ESC[m` is skipped by the `codes[1]` truthiness
    guard), while the specification's rule "a reset code (0 or empty) closes
    any currently open colored span" closes it before `B`. -/
theorem C8_counterexample :
    (parseAnsiColors ([escChar] ++ "[31mA".data ++ [escChar] ++ "[mB".data)
      = openSpanStr "#CC0000".data ++ "AB".data ++ closeSpanStr)
    ∧ (ansiClaimModel ([escChar] ++ "[31mA".data ++ [escChar] ++ "[mB".data)
      = openSpanStr "#CC0000".data ++ "A".data ++ closeSpanStr ++ "B".data)
    ∧ (openSpanStr "#CC0000".data ++ "AB".data ++ closeSpanStr
      ≠ openSpanStr "#CC0000".data ++ "A".data ++ closeSpanStr ++ "B".data) := by
  refine ⟨by decide, by decide, by decide⟩

/-- C8 as amended: the ANSI decoding behaves exactly as the specification
    sentence states — a reset code `0` closes any open span, a recognized
    color code (30–37, 90–97) opens a new span with the fixed mapping after
    closing any open one, unrecognized codes are consumed without output,
    a span still open at the end is auto-closed, and literal backslash-033
    is normalized first — except that an empty code list standing alone
    (a bare `ESC[m`) is consumed with no effect; an empty code item
    accompanied by other codes still closes the span. -/
theorem C8_ansi_amended (text : Line) : parseAnsiColors text = ansiAmendedModel text := by
  unfold parseAnsiColors ansiAmendedModel ansiTokens
  have h : (normalizeEsc text).foldl ansiStep ([], AnsiMode.plain, false)
      = ((renderFold processCodes
            ((normalizeEsc text).foldl tokStep ([], AnsiMode.plain)).1 false).1,
         ((normalizeEsc text).foldl tokStep ([], AnsiMode.plain)).2,
         (renderFold processCodes
            ((normalizeEsc text).foldl tokStep ([], AnsiMode.plain)).1 false).2) :=
    scan_agree (normalizeEsc text) [] AnsiMode.plain
  rw [h]
  generalize (normalizeEsc text).foldl tokStep ([], AnsiMode.plain) = stF
  obtain ⟨toksF, modeF⟩ := stF
  show ansiFlush ((renderFold processCodes toksF false).1, modeF,
      (renderFold processCodes toksF false).2)
    = ansiSpecRender processCodes (flushTok (toksF, modeF)) false
  cases modeF with
  | plain =>
    rw [show flushTok (toksF, AnsiMode.plain) = toksF ++ [] from rfl, List.append_nil]
    rw [ansiSpecRender_eq_fold]
    simp [ansiFlush]
  | sawEsc =>
    rw [show flushTok (toksF, AnsiMode.sawEsc) = toksF ++ [.inl [escChar]] from rfl]
    rw [ansiSpecRender_append]
    rw [show ansiSpecRender processCodes [.inl [escChar]]
          (renderFold processCodes toksF false).2
        = [escChar] ++ (if (renderFold processCodes toksF false).2
            then closeSpanStr else []) from rfl]
    simp [ansiFlush]
  | inCode acc =>
    rw [show flushTok (toksF, AnsiMode.inCode acc)
        = toksF ++ [.inl (escChar :: '[' :: acc)] from rfl]
    rw [ansiSpecRender_append]
    rw [show ansiSpecRender processCodes [.inl (escChar :: '[' :: acc)]
          (renderFold processCodes toksF false).2
        = (escChar :: '[' :: acc) ++ (if (renderFold processCodes toksF false).2
            then closeSpanStr else []) from rfl]
    simp [ansiFlush]

/-- C1 counterexample: a single entry whose rawText equals the filter text.
    The specification's rule makes it visible; the code's `applyFilter`
    marks it filtered-hidden, because the original-text extraction from the
    copy button's onclick attribute never matches the markup actually
    generated (the text lives in a data attribute, not in a
    `copyToClipboard('...')` call). -/
theorem C1_counterexample :
    ((applyFilter "error".data (parseContent 0 ["error".data])).map (fun x => x.2)
      = [false])
    ∧ ((specVisF "error".data (parseContent 0 ["error".data])).map (fun x => x.2)
      = [true])
    ∧ extractedOriginalText copyBtnOnclick = [] := by
  refine ⟨by decide, by decide, by decide⟩

/-- C1 as amended: after a filter change, an entry is visible iff the filter
    text is empty.  The extraction of the original text from the onclick
    attribute yields the empty string on the generated markup, so a
    non-empty filter hides every entry and no ancestor-of-match propagation
    takes place; an empty filter leaves every entry visible. -/
theorem C1_filter_amended (filterValue : Line) (forest : List Tree) :
    applyFilter filterValue forest
      = (flattenF forest).map (fun e => (e, decide (toLowerLine filterValue = []))) := by
  unfold applyFilter
  apply List.map_congr_left
  intro e _
  have hext : extractedOriginalText copyBtnOnclick = [] := by decide
  rw [hext]
  rcases hft : toLowerLine filterValue with _ | ⟨c, cs⟩
  · simp
  · simp [includesSub, toLowerLine]

/-- C2 counterexample: an invalidation-triggered reload does not present the
    entries collapsed at the top of the page — the previously expanded entry
    is expanded again and the scroll offset is restored, contradicting the
    claimed forced collapse-all and scroll reset (the view mode is indeed
    preserved). -/
theorem C2_counterexample :
    ((reloadAfterInvalidation (parseContent 0 ["A".data, "\tB".data])
        ⟨[("A".data, true)], 100, ViewMode.structured, []⟩).expanded
      = [("A".data, true)])
    ∧ ((reloadAfterInvalidation (parseContent 0 ["A".data, "\tB".data])
        ⟨[("A".data, true)], 100, ViewMode.structured, []⟩).scroll = 100)
    ∧ ((reloadAfterInvalidation (parseContent 0 ["A".data, "\tB".data])
        ⟨[("A".data, true)], 100, ViewMode.structured, []⟩).mode
      = ViewMode.structured) := by
  refine ⟨by decide, by decide, by decide⟩

theorem lookup_mapped (ids : List Line) (F : Line → Bool) (id : Line) (hid : id ∈ ids) :
    lookupExpanded (ids.map (fun i => (i, F i))) id = some (F id) := by
  induction ids with
  | nil => simp at hid
  | cons a rest ih =>
    by_cases ha : a = id
    · subst ha
      simp [lookupExpanded, List.find?]
    · have hid2 : id ∈ rest := by
        rcases List.mem_cons.mp hid with h | h
        · exact absurd h.symm ha
        · exact h
      have hne : (a == id) = false := by
        simp [ha]
      simp only [lookupExpanded, List.map_cons, List.find?] at ih ⊢
      rw [hne]
      exact ih hid2

/-- C2 as amended: a reload triggered by a live-update invalidation restores
    the persisted view state wholesale — the view mode, filter text and
    scroll offset come back unchanged, and every entry present in the page
    gets its saved expanded flag back (entries without a saved flag default
    to collapsed); nothing is forcibly collapsed and the scroll is not reset. -/
theorem C2_restore_amended (forest : List Tree) (ui : PageUI) :
    ((reloadAfterInvalidation forest ui).mode = ui.mode)
    ∧ ((reloadAfterInvalidation forest ui).filter = ui.filter)
    ∧ ((reloadAfterInvalidation forest ui).scroll = ui.scroll)
    ∧ ((reloadAfterInvalidation forest ui).expanded
        = (childrenIdsF forest).map
            (fun id => (id, (lookupExpanded ui.expanded id).getD false)))
    ∧ (∀ id, id ∈ childrenIdsF forest →
        lookupExpanded (reloadAfterInvalidation forest ui).expanded id
          = some ((lookupExpanded ui.expanded id).getD false)) := by
  refine ⟨rfl, rfl, rfl, rfl, ?_⟩
  intro id hid
  exact lookup_mapped (childrenIdsF forest)
    (fun i => (lookupExpanded ui.expanded i).getD false) id hid

theorem C2_restore_amended_witness :
    ((reloadAfterInvalidation (parseContent 0 ["A".data, "\tB".data])
        ⟨[("A".data, true)], 100, ViewMode.plain, "x".data⟩).mode = ViewMode.plain)
    ∧ ("A".data ∈ childrenIdsF (parseContent 0 ["A".data, "\tB".data])
      ∧ lookupExpanded (reloadAfterInvalidation (parseContent 0 ["A".data, "\tB".data])
          ⟨[("A".data, true)], 100, ViewMode.plain, "x".data⟩).expanded "A".data
        = some true) :=
  ⟨(C2_restore_amended (parseContent 0 ["A".data, "\tB".data])
      ⟨[("A".data, true)], 100, ViewMode.plain, "x".data⟩).1,
   by decide,
   by
    have h := (C2_restore_amended (parseContent 0 ["A".data, "\tB".data])
      ⟨[("A".data, true)], 100, ViewMode.plain, "x".data⟩).2.2.2.2 "A".data (by decide)
    rw [h]
    decide⟩

/-- C6 counterexample: with a configured file whose read fails, the route
    answers a normal page rendering an empty document with zeroed stats —
    not a user-visible error response. -/
theorem C6_counterexample :
    (handleRootRequest 0 0 60 (some "app.log".data) (.ioError "ENOENT".data)
      = .page (generateHtml [] "app.log".data 60 ⟨0, 0, 0⟩))
    ∧ (isErrorResponse (handleRootRequest 0 0 60 (some "app.log".data)
        (.ioError "ENOENT".data)) = false) := by
  exact ⟨rfl, rfl⟩

/-- C6 as amended: when the configured log file is missing or unreadable,
    the serving process does not crash, but the read error is swallowed
    inside `parseLogFileWithStats` (which logs it and returns empty entries
    with zeroed stats), and the route serves a normal page rendering that
    empty document — not an error response. -/
theorem C6_error_swallowed (tz cutoff : Int) (w : Nat) (path msg : Line) :
    (handleRootRequest tz cutoff w (some path) (.ioError msg)
      = .page (generateHtml [] path w ⟨0, 0, 0⟩))
    ∧ (isErrorResponse (handleRootRequest tz cutoff w (some path) (.ioError msg))
      = false) :=
  ⟨rfl, rfl⟩

/-- C7 counterexample: for the line `tab f o o space`, the text carried by
    the copy affordance (and handed to the clipboard after attribute
    decoding) is the trimmed `foo`, not the claimed "full original line
    content minus only its leading indentation", which would be `foo `
    with the trailing space. -/
theorem C7_counterexample :
    ((flattenF (parseContent 0 ["\tfoo ".data])).map
        (fun e => decodeAttrEntities (escapeForDataAttribute e.originalText))
      = ["foo".data])
    ∧ (["\tfoo ".data].map (fun l => l.drop (getIndentLevel l)) = ["foo ".data])
    ∧ ("foo".data ≠ "foo ".data) := by
  refine ⟨by decide, by decide, by decide⟩

/-- C7 as amended: for every rendered entry, the copy affordance carries the
    entry's rawText — the original line minus its leading indentation and
    trimmed of surrounding whitespace — and attribute decoding returns it
    byte-for-byte, embedded escape sequences included as literal text. -/
theorem C7_verbatim_copy (tz : Int) (lines : List Line)
    (h : ∀ l ∈ lines, lineText l ≠ []) :
    (flattenF (parseContent tz lines)).map
        (fun e => decodeAttrEntities (escapeForDataAttribute e.originalText))
      = lines.map lineText := by
  rw [flattenF_parseContent]
  have hfilter : lines.filter keepLine = lines := by
    apply List.filter_eq_self.mpr
    intro a ha
    simp [keepLine, h a ha]
  rw [hfilter, List.map_map]
  apply List.map_congr_left
  intro a _
  show decodeAttrEntities (escapeForDataAttribute (payloadOf tz a).originalText) = lineText a
  rw [decode_escape]
  rfl

theorem C7_verbatim_copy_witness :
    (∀ l ∈ (["\ta\\033[31m&x".data] : List Line), lineText l ≠ [])
    ∧ (flattenF (parseContent 0 ["\ta\\033[31m&x".data])).map
        (fun e => decodeAttrEntities (escapeForDataAttribute e.originalText))
      = (["\ta\\033[31m&x".data] : List Line).map lineText :=
  ⟨by decide, C7_verbatim_copy 0 ["\ta\\033[31m&x".data] (by decide)⟩

end ClaimTheoremsTwo

end LogViewer
